import Mathlib

/-!
Verification of the playlist-manager synchronization engine.

This file gives a shallow embedding, in Lean, of the core of the
plm-put-playlist tool (src/bin/plm-put-playlist.rs) together with the
shared playlist scanner (src/playlist_scanner.rs), and proves or refutes
the specification claims about it.

Modelling conventions:
* Text (file contents, paths, playlist lines) is a list of characters.
* The filesystem is an environment of deterministic oracles: each
  fallible operation (directory creation, file copy, playlist read)
  is a boolean- or option-valued function of the paths involved.
* Mutation through Rust mutable references (the error tracker, the
  copied set, the success counter) is explicit state passing of a
  RunState record; process exits with a non-zero code are the fatal
  outcome of a RunResult.
-/

namespace PlaylistManager

/-- Character-list model of Rust strings and paths. -/
abbrev Str := List Char

/-- Whitespace as recognised by str::trim: the full Unicode
White_Space property (char::is_whitespace), namely tab through
carriage return, space, next line, no-break space, ogham space mark,
the en-quad .. hair-space block, line and paragraph separators,
narrow no-break space, medium mathematical space and ideographic
space. -/
def isWs (c : Char) : Bool :=
  c == ' ' || c == '\t' || c == '\n' || c == '\r'
    || c == Char.ofNat 0x0B || c == Char.ofNat 0x0C
    || c == Char.ofNat 0x85 || c == Char.ofNat 0xA0 || c == Char.ofNat 0x1680
    || (decide (0x2000 ≤ c.toNat) && decide (c.toNat ≤ 0x200A))
    || c == Char.ofNat 0x2028 || c == Char.ofNat 0x2029
    || c == Char.ofNat 0x202F || c == Char.ofNat 0x205F || c == Char.ofNat 0x3000

/-- Model of str::trim_start. -/
def trimLeft (s : Str) : Str := s.dropWhile isWs

/-- Model of str::trim_end. -/
def trimRight (s : Str) : Str := (s.reverse.dropWhile isWs).reverse

/-- Model of str::trim: drop leading and trailing whitespace. -/
def trimStr (s : Str) : Str := trimLeft (trimRight s)

/-- Model of Path::join followed by Display: an absolute right operand
replaces the left one, otherwise the two are joined with a single
separator (none is inserted after a trailing separator). -/
def pathJoin (a b : Str) : Str :=
  if b.head? = some '/' then b
  else if a = [] then b
  else if a.getLast? = some '/' then a ++ b
  else a ++ '/' :: b

/-- Model of Path::file_name, with the callers' mapping of None to the
empty name: the last normal component of the path, where components
normalization drops empty fragments and interior curdir fragments, and
a last component that is "." or ".." yields None (hence the empty
name). -/
def fileNameStr (s : Str) : Str :=
  let frags := (s.splitOn '/').filter (fun f => !(f.isEmpty || f == ['.']))
  match frags.getLast? with
  | some comp => if comp = ['.', '.'] then [] else comp
  | none => []

/-- Model of Path::parent (as a string, with the code's unwrap of the
root case) for paths without trailing or duplicated separators:
everything before the last separator, a lone leading separator giving
the root. -/
def parentStr (s : Str) : Str :=
  let rest := s.reverse.dropWhile (fun c => c != '/')
  if rest = [] then []
  else if rest.drop 1 = [] then ['/']
  else (rest.drop 1).reverse

/-- Model of Path::file_stem on a file name: the portion before the
final dot, the whole name when there is no dot or when the only dot is
the leading character. -/
def fileStemStr (n : Str) : Str :=
  let ext := n.reverse.takeWhile (fun c => c != '.')
  if ext.length = n.length then n
  else if n.length = ext.length + 1 then n
  else n.take (n.length - ext.length - 1)

/-- Strip one trailing carriage return, as BufRead::lines does after
removing the line feed of a CRLF ending. -/
def stripCR (l : Str) : Str :=
  if l.getLast? = some '\r' then l.dropLast else l

/-- Worker for rustLines; the accumulator holds the current line
reversed. -/
def rustLinesGo : Str → Str → List Str
  | [], acc => if acc = [] then [] else [acc.reverse]
  | c :: r, acc =>
    if c = '\n' then stripCR acc.reverse :: rustLinesGo r []
    else rustLinesGo r (c :: acc)

/-- Model of BufRead::lines and str::lines on decodable text: split at
line feeds, strip a carriage return that preceded a line feed, and do
not produce a final empty line for a trailing line feed. -/
def rustLines (s : Str) : List Str := rustLinesGo s []

/-! ### Playlist Parser (src/playlist_scanner.rs and extract_media_files) -/

/-- Byte-order-mark character stripped by the parser. -/
def bomChar : Char := Char.ofNat 0xFEFF

/-- Per-line normalization of playlist_scanner::process_line: strip one
leading byte-order mark (the code drops its three bytes, which is one
character), then strip one trailing carriage return. -/
def process_line (l : Str) : Str :=
  let l1 := if l.head? = some bomChar then l.drop 1 else l
  if l1.getLast? = some '\r' then l1.dropLast else l1

/-- Test for a leading comment marker, as str::starts_with('#'). -/
def startsHash (l : Str) : Bool := l.head? == some '#'

/-- Line filter of playlist_scanner::filter_line: keep a line unless it
is a comment or empty. -/
def filter_line (l : Str) : Bool := !(startsHash l || l.isEmpty)

/-- Model of playlist_scanner::replace_backslash:
str::replace('\\', "/"). -/
def replace_backslash (l : Str) : Str :=
  l.map (fun c => if c = '\\' then '/' else c)

/-- Model of playlist_scanner::read_playlist and of the identical
iterator chain in extract_media_files. The input is the sequence of
raw lines of the file, where none marks a line that failed to decode
as valid text (the filter_map over Result::ok drops it). -/
def read_playlist (rawLines : List (Option Str)) : List Str :=
  (((rawLines.filterMap id).map process_line).filter filter_line).map replace_backslash

/-! ### Error Tracker serialization (ErrorTracker::write_to_file) -/

/-- Tagged failure variant of the error tracker (enum FailureType). -/
inductive FailureType where
  | playlist (p : Str)
  | mediaFile (srcBasedir file : Str)
deriving DecidableEq

/-- Serialized line of one failure record: a playlist failure is the
original playlist path behind a P tag, a media failure is the joined
source path behind an M tag. -/
def serializeFailure : FailureType → Str
  | .playlist p => 'P' :: ' ' :: p
  | .mediaFile b f => 'M' :: ' ' :: pathJoin b f

/-- Model of ErrorTracker::write_to_file: each record in operation
order on its own newline-terminated line. -/
def write_to_file : List FailureType → Str
  | [] => []
  | fl :: rest => serializeFailure fl ++ '\n' :: write_to_file rest

/-! ### Failure log parsing (parse_error_file) -/

/-- Literal path segment the retry parser searches for. -/
def musicMarker : Str := ['/', 'M', 'U', 'S', 'I', 'C', '/']

/-- Worker for findMarker: index of the first occurrence of the
marker, scanning left to right. -/
def findMarkerGo : Str → Nat → Option Nat
  | [], _ => none
  | c :: r, i =>
    if musicMarker.isPrefixOf (c :: r) then some i
    else findMarkerGo r (i + 1)

/-- Model of str::find("/MUSIC/"): position of the first occurrence. -/
def findMarker (s : Str) : Option Nat := findMarkerGo s 0

/-- Media branch of parse_error_file on the trimmed path: split at the
first MUSIC marker into base directory (inclusive) and relative path,
falling back to the parent directory and file name when the marker is
absent; a record with an empty relative part or file name is dropped. -/
def recoverMedia (fp : Str) : Option (Str × Str) :=
  match findMarker fp with
  | some i =>
    let rel := fp.drop (i + 7)
    if rel = [] then none else some (fp.take (i + 7), rel)
  | none =>
    let name := fileNameStr fp
    if name = [] then none else some (parentStr fp, name)

/-- Tag of a playlist log line. -/
def pTag : Str := ['P', ' ']

/-- Tag of a media log line. -/
def mTag : Str := ['M', ' ']

/-- Line loop of parse_error_file: playlist paths and recovered media
pairs are collected into two separate vectors, each in line order; any
other line is ignored. -/
def parseLinesGo : List Str → List Str × List (Str × Str)
  | [] => ([], [])
  | line :: rest =>
    let acc := parseLinesGo rest
    if pTag.isPrefixOf line then (trimStr (line.drop 2) :: acc.1, acc.2)
    else if mTag.isPrefixOf line then
      match recoverMedia (trimStr (line.drop 2)) with
      | some bm => (acc.1, bm :: acc.2)
      | none => acc
    else acc

/-- Model of parse_error_file on the log file's content. -/
def parse_error_file (content : Str) : List Str × List (Str × Str) :=
  parseLinesGo (rustLines content)

/-- Simple path shape: after an optional leading separator, every
slash-separated fragment is nonempty and neither "." nor "..". On such
paths the textual parent/file-name split (parentStr, fileNameStr)
coincides with Rust's Path::parent and Path::file_name. -/
def simplePath (s : Str) : Bool :=
  let fr := s.splitOn '/'
  let fr2 := if fr.head? == some ([] : Str) then fr.drop 1 else fr
  fr2.all (fun f => !(f.isEmpty || f == ['.'] || f == ['.', '.']))

/-- Well-behaved failure record: its serialized path holds no line
feed (so the log line structure survives), is invariant under the
parser's trim, (for media) the marker or fallback recovery yields a
nonempty pair, so the record is not dropped, and a media path without
the MUSIC marker is a simple path, so the fallback's textual
parent/file-name split matches Path::parent and Path::file_name. -/
def goodRecord : FailureType → Prop
  | .playlist p => '\n' ∉ p ∧ trimStr p = p
  | .mediaFile b f =>
    '\n' ∉ pathJoin b f ∧ trimStr (pathJoin b f) = pathJoin b f
      ∧ (recoverMedia (pathJoin b f)).isSome = true
      ∧ (findMarker (pathJoin b f) = none → simplePath (pathJoin b f) = true)

instance goodRecordDecidable : DecidablePred goodRecord := fun fl => by
  cases fl <;> simp only [goodRecord] <;> infer_instance

/-- Playlist component of a failure record. -/
def playlistPathOf : FailureType → Option Str
  | .playlist p => some p
  | .mediaFile _ _ => none

/-- Media component of a failure record, as the retry parser recovers
it from the serialized joined path. -/
def mediaRecoverOf : FailureType → Option (Str × Str)
  | .playlist _ => none
  | .mediaFile b f => recoverMedia (pathJoin b f)

/-! ### Playlist copy (copy_playlist_file), content level -/

/-- Backslash scan of copy_playlist_file: does any line that is not a
comment contain a backslash. -/
def has_backslashes (content : Str) : Bool :=
  (rustLines content).any (fun l => !startsHash l && l.contains '\\')

/-- Rewrite branch of copy_playlist_file: each line that is not a
comment and contains a backslash has its backslashes replaced by
forward slashes, all lines are then re-joined with a line feed. -/
def rewriteContent (content : Str) : Str :=
  List.intercalate ['\n'] ((rustLines content).map (fun l =>
    if !startsHash l && l.contains '\\' then replace_backslash l else l))

/-- Model of copy_playlist_file: the playlist lands flattened at the
destination root under its own file name (first component); its
content is rewritten when some non-comment line holds a backslash and
is copied byte for byte otherwise (second component). -/
def copy_playlist_file (destBasedir playlistPath content : Str) : Str × Str :=
  (pathJoin destBasedir (fileNameStr playlistPath),
   if has_backslashes content then rewriteContent content else content)

/-! ### Copy Orchestrator: filesystem environment and run state -/

/-- Retry-level processing event: one entry per retried playlist or
bare media item, in processing order. -/
inductive RetryEvent where
  | playlistRetry (p : Str)
  | mediaRetry (srcBasedir file : Str)
deriving DecidableEq

/-- Deterministic filesystem environment: one oracle per fallible
operation of the orchestrator. Directory existence and creation are
functions of the destination directory path; copies are functions of
the source and destination paths; extract is extract_media_files,
yielding the playlist's parent directory as base directory together
with the parsed relative paths, or none when opening or reading the
playlist fails; playlistCopyOk is the filesystem outcome of
copy_playlist_file (whose content transformation is modelled above). -/
structure Env where
  dirExists : Str → Bool
  createDirOk : Str → Bool
  copyOk : Str → Str → Bool
  fileExists : Str → Bool
  playlistCopyOk : Str → Bool
  extract : Str → Option (Str × List Str)

/-- Observable state threaded through a run: the error tracker's
failure sequence, the copied set, the successful-media counter, the
counter values emitted in per-success progress messages, the media
copy attempts as (base directory, relative path) pairs, the
successful media copies, the lyrics sidecar copy attempts, the
skipping-already-copied messages of retry mode, and the retry-level
event order. -/
structure RunState where
  failures : List FailureType
  copied : List (Str × Str)
  nSuccess : Nat
  emitted : List Nat
  attempts : List (Str × Str)
  succCopies : List (Str × Str)
  lyricsAttempts : List (Str × Str)
  skips : List (Str × Str)
  events : List RetryEvent
deriving DecidableEq

/-- Initial state of a run. -/
def initState : RunState := ⟨[], [], 0, [], [], [], [], [], []⟩

/-- Outcome of a fallible step: fatal models an error propagated into
a non-zero process exit, after which nothing further runs and no
summary is printed. -/
inductive RunResult (α : Type) where
  | ok (a : α)
  | fatal
deriving DecidableEq

/-- Model of copy_single_media_file. The destination directory is the
destination base joined with the directory part of the relative path;
it is created when absent (a failure is fatal without keep-going, and
a recorded MediaFailure with it). The media file is then copied,
overwriting any existing file (same failure handling). On media
success, with lyrics mode on, a sidecar whose name is the media
file's stem with .lrc appended is copied from the same relative
directory when it exists; a sidecar failure is printed but never
recorded, and is fatal only without keep-going. The returned flag is
the media-copy success used by the caller for counting; the file
count the Rust function also returns is unused by its callers and not
modelled. -/
def copy_single_media_file (env : Env) (destBasedir : Str)
    (keepGoing copyLyrics : Bool) (srcBasedir file : Str) (st : RunState) :
    RunState × RunResult Bool :=
  let dirPart := parentStr file
  let destDir := pathJoin destBasedir dirPart
  if !env.dirExists destDir && !env.createDirOk destDir then
    if keepGoing then
      ({st with failures := st.failures ++ [.mediaFile srcBasedir file]}, .ok false)
    else (st, .fatal)
  else
    let srcFile := pathJoin srcBasedir file
    let destFile := pathJoin destDir (fileNameStr file)
    let st1 := {st with attempts := st.attempts ++ [(srcBasedir, file)]}
    if !env.copyOk srcFile destFile then
      if keepGoing then
        ({st1 with failures := st1.failures ++ [.mediaFile srcBasedir file]}, .ok false)
      else (st1, .fatal)
    else
      let st2 := {st1 with succCopies := st1.succCopies ++ [(srcBasedir, file)]}
      if copyLyrics && !(fileNameStr file).isEmpty then
        let lyricsName := fileStemStr (fileNameStr file) ++ ".lrc".toList
        let lyricsPath := pathJoin (pathJoin srcBasedir dirPart) lyricsName
        if env.fileExists lyricsPath then
          let st3 := {st2 with lyricsAttempts := st2.lyricsAttempts ++ [(srcBasedir, file)]}
          if env.copyOk lyricsPath (pathJoin destDir lyricsName) then (st3, .ok true)
          else if keepGoing then (st3, .ok true)
          else (st3, .fatal)
        else (st2, .ok true)
      else (st2, .ok true)

/-- Model of copy_media_files: copy each file in order through
copy_single_media_file; each success increments the shared
successful-media counter, emits a progress message carrying the new
counter value, and is collected into the returned successful list. -/
def copy_media_files (env : Env) (destBasedir : Str)
    (keepGoing copyLyrics : Bool) (srcBasedir : Str) :
    List Str → RunState → RunState × RunResult (List Str)
  | [], st => (st, .ok [])
  | f :: rest, st =>
    match copy_single_media_file env destBasedir keepGoing copyLyrics srcBasedir f st with
    | (st1, .fatal) => (st1, .fatal)
    | (st1, .ok success) =>
      if success then
        let st2 := {st1 with nSuccess := st1.nSuccess + 1,
                             emitted := st1.emitted ++ [st1.nSuccess + 1]}
        match copy_media_files env destBasedir keepGoing copyLyrics srcBasedir rest st2 with
        | (st3, .fatal) => (st3, .fatal)
        | (st3, .ok succ) => (st3, .ok (f :: succ))
      else
        copy_media_files env destBasedir keepGoing copyLyrics srcBasedir rest st1

/-- Model of process_playlist: copy the playlist file, then parse it
into its base directory and media list; either failure fails the
playlist. The media_files_map the Rust function also fills is
write-only in the whole program and is not modelled. -/
def process_playlist (env : Env) (p : Str) : Option (Str × List Str) :=
  if env.playlistCopyOk p then env.extract p else none

/-- Model of filter_already_copied_files. -/
def filter_already_copied_files (srcBasedir : Str) (files : List Str)
    (copied : List (Str × Str)) : List Str :=
  files.filter (fun f => !copied.contains (srcBasedir, f))

/-- Idempotent insertion modelling HashSet::insert on the list that
represents the set. -/
def insertUnique (x : Str × Str) (l : List (Str × Str)) : List (Str × Str) :=
  if x ∈ l then l else l ++ [x]

/-- Pre-pass of process_normal_operations: fold every playlist's
(base directory, relative path) pairs into the global deduplicated
set, in playlist order; an extraction error is fatal without
keep-going and skips the playlist with it. -/
def prePassGo (env : Env) (keepGoing : Bool) :
    List Str → List (Str × Str) → RunResult (List (Str × Str))
  | [], acc => .ok acc
  | p :: rest, acc =>
    match env.extract p with
    | some (bd, fs) =>
      prePassGo env keepGoing rest (fs.foldl (fun a f => insertUnique (bd, f) a) acc)
    | none =>
      if keepGoing then prePassGo env keepGoing rest acc else .fatal

/-- Playlist loop of process_normal_operations: process each playlist,
filter out already copied files, copy the remainder, then mark the
successfully copied files as copied and count the playlist as
successful; failures follow the keep-going policy, with a playlist
failure recorded in the tracker. -/
def normalLoop (env : Env) (destDir : Str) (keepGoing copyLyrics : Bool) :
    List Str → RunState → Nat → (RunState × Nat) × RunResult Unit
  | [], st, sp => ((st, sp), .ok ())
  | p :: rest, st, sp =>
    match process_playlist env p with
    | some (srcBasedir, files) =>
      let toCopy := filter_already_copied_files srcBasedir files st.copied
      match copy_media_files env destDir keepGoing copyLyrics srcBasedir toCopy st with
      | (st1, .ok succ) =>
        let st2 := {st1 with
          copied := succ.foldl (fun c f => insertUnique (srcBasedir, f) c) st1.copied}
        normalLoop env destDir keepGoing copyLyrics rest st2 (sp + 1)
      | (st1, .fatal) =>
        if keepGoing then normalLoop env destDir keepGoing copyLyrics rest st1 sp
        else ((st1, sp), .fatal)
    | none =>
      let st1 := {st with failures := st.failures ++ [.playlist p]}
      if keepGoing then normalLoop env destDir keepGoing copyLyrics rest st1 sp
      else ((st1, sp), .fatal)

/-- Model of process_normal_operations: pre-pass computing the global
unique media total, then the playlist loop; on completion the summary
quadruple (successful playlists, total playlists, successful media,
total unique media) is returned. -/
def process_normal_operations (env : Env) (destDir : Str)
    (keepGoing copyLyrics : Bool) (playlists : List Str) :
    RunState × RunResult (Nat × Nat × Nat × Nat) :=
  match prePassGo env keepGoing playlists [] with
  | .fatal => (initState, .fatal)
  | .ok all =>
    match normalLoop env destDir keepGoing copyLyrics playlists initState 0 with
    | ((st, sp), .ok _) => (st, .ok (sp, playlists.length, st.nSuccess, all.length))
    | ((st, _), .fatal) => (st, .fatal)

/-- Model of retry_playlist: re-run the full playlist pipeline, filter
against the retry run's copied set, copy the remainder, and absorb
the successes into the copied set; returns whether the playlist
processed and the per-call successful-media count that
retry_operations adds to the shared counter again. -/
def retry_playlist (env : Env) (destDir : Str) (keepGoing copyLyrics : Bool)
    (p : Str) (st : RunState) : RunState × RunResult (Bool × Nat) :=
  let st0 := {st with events := st.events ++ [.playlistRetry p]}
  match process_playlist env p with
  | some (srcBasedir, files) =>
    let toCopy := filter_already_copied_files srcBasedir files st0.copied
    match copy_media_files env destDir keepGoing copyLyrics srcBasedir toCopy st0 with
    | (st1, .ok succ) =>
      let st2 := {st1 with
        copied := succ.foldl (fun c f => insertUnique (srcBasedir, f) c) st1.copied}
      (st2, .ok (true, succ.length))
    | (st1, .fatal) =>
      if keepGoing then (st1, .ok (true, 0)) else (st1, .fatal)
  | none =>
    let st1 := {st0 with failures := st0.failures ++ [.playlist p]}
    if keepGoing then (st1, .ok (false, 0)) else (st1, .fatal)

/-- Model of retry_media_file: a bare media entry already in the retry
run's copied set is skipped with a message and counted as one success
without any copy; otherwise it is copied through copy_media_files
(which already bumps the shared counter once) and the per-call
successful count is returned. -/
def retry_media_file (env : Env) (destDir : Str) (keepGoing copyLyrics : Bool)
    (srcBasedir file : Str) (st : RunState) : RunState × RunResult Nat :=
  let st0 := {st with events := st.events ++ [.mediaRetry srcBasedir file]}
  if (srcBasedir, file) ∈ st0.copied then
    ({st0 with skips := st0.skips ++ [(srcBasedir, file)]}, .ok 1)
  else
    match copy_media_files env destDir keepGoing copyLyrics srcBasedir [file] st0 with
    | (st1, .ok succ) =>
      let st2 := {st1 with
        copied := succ.foldl (fun c f => insertUnique (srcBasedir, f) c) st1.copied}
      (st2, .ok succ.length)
    | (st1, .fatal) =>
      if keepGoing then (st1, .ok 0) else (st1, .fatal)

/-- Playlist loop of retry_operations: each per-playlist success count
is added to the shared successful-media counter (which
copy_media_files already incremented per success), and the
successful-playlist count is accumulated. -/
def retryPlaylistLoop (env : Env) (destDir : Str) (keepGoing copyLyrics : Bool) :
    List Str → RunState → Nat → (RunState × Nat) × RunResult Unit
  | [], st, sp => ((st, sp), .ok ())
  | p :: rest, st, sp =>
    match retry_playlist env destDir keepGoing copyLyrics p st with
    | (st1, .ok sc) =>
      retryPlaylistLoop env destDir keepGoing copyLyrics rest
        {st1 with nSuccess := st1.nSuccess + sc.2} (if sc.1 then sp + 1 else sp)
    | (st1, .fatal) => ((st1, sp), .fatal)

/-- Media loop of retry_operations: likewise adds each returned count
to the shared counter (a second time for real copies, once for
skips). -/
def retryMediaLoop (env : Env) (destDir : Str) (keepGoing copyLyrics : Bool) :
    List (Str × Str) → RunState → RunState × RunResult Unit
  | [], st => (st, .ok ())
  | bf :: rest, st =>
    match retry_media_file env destDir keepGoing copyLyrics bf.1 bf.2 st with
    | (st1, .ok count) =>
      retryMediaLoop env destDir keepGoing copyLyrics rest
        {st1 with nSuccess := st1.nSuccess + count}
    | (st1, .fatal) => (st1, .fatal)

/-- Model of retry_operations: parse the failure log, retry all
playlist entries first in log order, then the bare media entries;
on completion the summary quadruple is returned, the totals being the
parsed entry counts. -/
def retry_operations (env : Env) (destDir : Str) (keepGoing copyLyrics : Bool)
    (content : Str) : RunState × RunResult (Nat × Nat × Nat × Nat) :=
  let parsed := parse_error_file content
  match retryPlaylistLoop env destDir keepGoing copyLyrics parsed.1 initState 0 with
  | ((st, sp), .ok _) =>
    match retryMediaLoop env destDir keepGoing copyLyrics parsed.2 st with
    | (st2, .ok _) => (st2, .ok (sp, parsed.1.length, st2.nSuccess, parsed.2.length))
    | (st2, .fatal) => (st2, .fatal)
  | ((st, _), .fatal) => (st, .fatal)

/-- Destination directory of a media item: destination base joined
with the directory part of the relative path. -/
def destDirAt (d f : Str) : Str := pathJoin d (parentStr f)

/-- Success of the ensure-destination-directory step: the directory
exists or its creation succeeds. -/
def dirStepOk (env : Env) (d f : Str) : Bool :=
  env.dirExists (destDirAt d f) || env.createDirOk (destDirAt d f)

/-- Success of the media fs::copy for an item. -/
def mediaCopyOkAt (env : Env) (d b f : Str) : Bool :=
  env.copyOk (pathJoin b f) (pathJoin (destDirAt d f) (fileNameStr f))

/-- Sidecar file name: the media file's stem with .lrc appended. -/
def lyricsNameAt (f : Str) : Str := fileStemStr (fileNameStr f) ++ ".lrc".toList

/-- Sidecar source path, in the media item's relative directory. -/
def lyricsSrcAt (b f : Str) : Str := pathJoin (pathJoin b (parentStr f)) (lyricsNameAt f)

/-- Sidecar destination path. -/
def lyricsDstAt (d f : Str) : Str := pathJoin (destDirAt d f) (lyricsNameAt f)

/-- Pre-pass union ignoring the keep-going error policy: the fold of
prePassGo restricted to its successful extractions. With keep-going
on, or when every playlist extracts, prePassGo returns exactly this
list. -/
def prePassAll (env : Env) : List Str → List (Str × Str) → List (Str × Str)
  | [], acc => acc
  | p :: rest, acc =>
    match env.extract p with
    | some (bd, fs) =>
      prePassAll env rest (fs.foldl (fun a f => insertUnique (bd, f) a) acc)
    | none => prePassAll env rest acc

/-- Environment in which every filesystem operation succeeds, no
sidecar exists, and every playlist parses to two distinct tracks. -/
def envAllOk : Env where
  dirExists := fun _ => true
  createDirOk := fun _ => true
  copyOk := fun _ _ => true
  fileExists := fun _ => false
  playlistCopyOk := fun _ => true
  extract := fun _ => some ("/m".toList, ["a.flac".toList, "b.flac".toList])

/-- Environment whose single playlist lists the same relative path
twice. -/
def envDup : Env :=
  { envAllOk with extract := fun _ => some ("/m".toList, ["a.flac".toList, "a.flac".toList]) }

/-- Environment for the retry scenarios: every playlist parses to the
single track x.flac under /m. -/
def envRetry : Env :=
  { envAllOk with extract := fun _ => some ("/m".toList, ["x.flac".toList]) }

/-- Environment in which every media copy fails. -/
def envMediaFail : Env := { envAllOk with copyOk := fun _ _ => false }

/-- Environment in which destination directories neither exist nor can
be created. -/
def envDirFail : Env :=
  { envAllOk with dirExists := fun _ => false, createDirOk := fun _ => false }

/-- Environment in which every sidecar exists and every copy
succeeds. -/
def envLyrics : Env := { envAllOk with fileExists := fun _ => true }

/-- Environment in which every sidecar exists and exactly the copies
whose source ends in .lrc fail. -/
def envLyricsFail : Env :=
  { envAllOk with
    fileExists := fun _ => true,
    copyOk := fun s _ => !(s.reverse.take 4 == "crl.".toList) }

/-- C4. The playlist parser applies to each line, in this order: strip
one leading byte-order mark, strip one trailing carriage return,
discard the line if it is then empty or a comment, and replace every
backslash with a forward slash; undecodable lines are skipped silently
and the surviving lines keep their order. -/
theorem read_playlist_per_line_spec (rawLines : List (Option Str)) :
    read_playlist rawLines = rawLines.filterMap (fun l? =>
      match l? with
      | none => none
      | some l =>
        if startsHash (process_line l) || (process_line l).isEmpty then none
        else some (replace_backslash (process_line l))) := by
  induction rawLines with
  | nil => rfl
  | cons h t ih =>
    cases h with
    | none => simpa [read_playlist, List.filterMap_cons] using ih
    | some l =>
      by_cases hc : (startsHash (process_line l) || (process_line l).isEmpty) = true
      · simp only [read_playlist, List.filterMap_cons, id, List.map_cons, List.filter_cons,
          filter_line, hc, Bool.not_true] at ih ⊢
        simpa using ih
      · simp only [read_playlist, List.filterMap_cons, id, List.map_cons, List.filter_cons,
          filter_line, Bool.not_eq_true] at ih hc ⊢
        simp [hc, ih]

theorem rustLinesGo_append (l : Str) (rest : Str) :
    ∀ acc : Str, '\n' ∉ l →
      rustLinesGo (l ++ '\n' :: rest) acc
        = stripCR (acc.reverse ++ l) :: rustLinesGo rest [] := by
  induction l with
  | nil =>
    intro acc _
    simp [rustLinesGo]
  | cons c l ih =>
    intro acc h
    have hc : ¬ c = '\n' := fun hcc => h (hcc ▸ List.mem_cons_self c l)
    have h2 : '\n' ∉ l := fun hm => h (List.mem_cons_of_mem c hm)
    simp only [List.cons_append, rustLinesGo, if_neg hc]
    rw [List.append_eq, ih (c :: acc) h2]
    simp [List.append_assoc]

theorem rustLines_cons_line (l : Str) (rest : Str) (h : '\n' ∉ l) :
    rustLines (l ++ '\n' :: rest) = stripCR l :: rustLines rest := by
  simpa [rustLines] using rustLinesGo_append l rest [] h

theorem trim_length_lt_of_last_ws (s : Str) (c : Char) (hlast : s.getLast? = some c)
    (hws : isWs c = true) : (trimStr s).length < s.length := by
  have hrev : s.reverse.head? = some c := by
    rw [List.head?_reverse]
    exact hlast
  cases hr : s.reverse with
  | nil => rw [hr] at hrev; exact absurd hrev (by simp)
  | cons a t =>
    rw [hr] at hrev
    have ha : a = c := by simpa using hrev
    have hlen : s.length = t.length + 1 := by
      have := congrArg List.length hr
      simpa using this
    have h1 : (trimRight s).length ≤ t.length := by
      unfold trimRight
      rw [hr, ha, List.dropWhile_cons_of_pos hws]
      simpa using (List.dropWhile_sublist isWs).length_le
    have h2 : (trimStr s).length ≤ (trimRight s).length := by
      unfold trimStr trimLeft
      exact (List.dropWhile_sublist isWs).length_le
    omega

theorem stripCR_eq_of_trim_eq (s : Str) (h : trimStr s = s) : stripCR s = s := by
  unfold stripCR
  split
  next hlast =>
    have hlt : (trimStr s).length < s.length :=
      trim_length_lt_of_last_ws s '\r' hlast (by decide)
    rw [h] at hlt
    exact absurd hlt (lt_irrefl _)
  next => rfl

theorem stripCR_tag_line (a : Char) (p : Str) (h : trimStr p = p) :
    stripCR (a :: ' ' :: p) = a :: ' ' :: p := by
  have hlast : ¬ (a :: ' ' :: p).getLast? = some '\r' := by
    rcases List.eq_nil_or_concat' p with hnil | ⟨q, c, hq⟩
    · subst hnil
      intro hcon
      rw [List.getLast?_cons_cons] at hcon
      exact absurd hcon (by decide)
    · subst hq
      intro hcon
      have h1 : (a :: ' ' :: (q ++ [c])).getLast? = some c := by
        rw [show a :: ' ' :: (q ++ [c]) = (a :: ' ' :: q) ++ [c] by simp]
        exact List.getLast?_concat _
      rw [h1] at hcon
      have hc : c = '\r' := by injection hcon
      subst hc
      have hlt : (trimStr (q ++ ['\r'])).length < (q ++ ['\r']).length :=
        trim_length_lt_of_last_ws _ '\r' (List.getLast?_concat _) (by decide)
      rw [h] at hlt
      exact absurd hlt (lt_irrefl _)
  unfold stripCR
  rw [if_neg hlast]

/-- C2 (amended). Serializing a failure sequence with write_to_file
and parsing the file back with parse_error_file reconstructs the
ordered playlist paths and the ordered media records, the media split
being recovered by the first MUSIC marker or by the parent/file-name
fallback, provided each record's serialized path contains no line
feed, is invariant under trimming of Unicode whitespace, recovers to a
nonempty media pair, and — when the marker is absent — is a simple
path, so the fallback's textual split matches Path::parent and
Path::file_name. -/
theorem parse_write_round_trip_amended (F : List FailureType)
    (h : ∀ fl ∈ F, goodRecord fl) :
    parse_error_file (write_to_file F) =
      (F.filterMap playlistPathOf, F.filterMap mediaRecoverOf) := by
  induction F with
  | nil => rfl
  | cons fl F ih =>
    have hfl := h fl (List.mem_cons_self fl F)
    have ih' := ih (fun g hg => h g (List.mem_cons_of_mem fl hg))
    cases fl with
    | playlist p =>
      obtain ⟨hnl, htr⟩ := hfl
      have hln : '\n' ∉ ('P' :: ' ' :: p) := by
        simp only [List.mem_cons, not_or]
        exact ⟨by decide, by decide, hnl⟩
      have hw : write_to_file (FailureType.playlist p :: F)
          = ('P' :: ' ' :: p) ++ '\n' :: write_to_file F := rfl
      have hpre : pTag.isPrefixOf ('P' :: ' ' :: p) = true := by
        simp [pTag, List.isPrefixOf_cons₂]
      have hdrop : (('P' :: ' ' :: p) : Str).drop 2 = p := rfl
      unfold parse_error_file at ih' ⊢
      rw [hw, rustLines_cons_line _ _ hln, stripCR_tag_line 'P' p htr]
      simp [parseLinesGo, hpre, hdrop, htr, ih', playlistPathOf, mediaRecoverOf]
    | mediaFile b f =>
      obtain ⟨hnl, htr, hsome, _⟩ := hfl
      obtain ⟨bm, hbm⟩ := Option.isSome_iff_exists.mp hsome
      have hln : '\n' ∉ ('M' :: ' ' :: pathJoin b f) := by
        simp only [List.mem_cons, not_or]
        exact ⟨by decide, by decide, hnl⟩
      have hw : write_to_file (FailureType.mediaFile b f :: F)
          = ('M' :: ' ' :: pathJoin b f) ++ '\n' :: write_to_file F := rfl
      have hch : (('P' : Char) == 'M') = false := by decide
      have hpreP : pTag.isPrefixOf ('M' :: ' ' :: pathJoin b f) = false := by
        simp [pTag, List.isPrefixOf_cons₂, hch]
      have hpreM : mTag.isPrefixOf ('M' :: ' ' :: pathJoin b f) = true := by
        simp [mTag, List.isPrefixOf_cons₂]
      have hdrop : (('M' :: ' ' :: pathJoin b f) : Str).drop 2 = pathJoin b f := rfl
      unfold parse_error_file at ih' ⊢
      rw [hw, rustLines_cons_line _ _ hln, stripCR_tag_line 'M' (pathJoin b f) htr]
      simp [parseLinesGo, hpreP, hpreM, hdrop, htr, hbm, ih', playlistPathOf,
        mediaRecoverOf]

/-- C2 (counterexample). A media record whose relative path carries a
trailing space serializes to a well-formed M line, but the parser
trims the stored path, so the reconstructed media pair joins to a
different path than the one that was serialized: the round trip does
not preserve the (kind, path) pair. -/
theorem parse_write_round_trip_counterexample :
    parse_error_file (write_to_file [.mediaFile "/m/MUSIC".toList "t.flac ".toList])
      = ([], [("/m/MUSIC/".toList, "t.flac".toList)])
    ∧ pathJoin "/m/MUSIC/".toList "t.flac".toList
        ≠ pathJoin "/m/MUSIC".toList "t.flac ".toList := by
  constructor
  · decide
  · decide

/-- Witness for the amended C2 round trip on a concrete two-record
log. -/
theorem parse_write_round_trip_witness :
    parse_error_file (write_to_file
        [.playlist "/m/a.m3u8".toList, .mediaFile "/m/MUSIC".toList "d/t.flac".toList])
      = (["/m/a.m3u8".toList], [("/m/MUSIC/".toList, "d/t.flac".toList)]) := by
  rw [parse_write_round_trip_amended _ (by decide)]
  decide

theorem replace_backslash_eq_self : ∀ l : Str, '\\' ∉ l → replace_backslash l = l := by
  intro l
  induction l with
  | nil => intro _; rfl
  | cons c l ih =>
    intro h
    have hc : ¬ c = '\\' := fun hcc => h (hcc ▸ List.mem_cons_self c l)
    simp only [replace_backslash, List.map_cons, if_neg hc]
    exact congrArg (List.cons c) (ih (fun hm => h (List.mem_cons_of_mem c hm)))

/-- C6 (counterexample). With a comment line holding a backslash and a
track line holding another, the rewrite branch fires but the written
body still contains a backslash: it is not the body with all
backslashes converted, because comment lines are left unchanged. -/
theorem copy_playlist_comment_backslash_counterexample :
    has_backslashes "#c\\mt\na\\b".toList = true
    ∧ ((copy_playlist_file "/dst".toList "/m/p.m3u8".toList
          "#c\\mt\na\\b".toList).2).contains '\\' = true
    ∧ (copy_playlist_file "/dst".toList "/m/p.m3u8".toList "#c\\mt\na\\b".toList).2
        ≠ replace_backslash "#c\\mt\na\\b".toList := by
  refine ⟨by decide, by decide, by decide⟩

/-- C6 (amended). The playlist is written to the destination root
under its own file name; when no non-comment line holds a backslash
the content is copied byte for byte; otherwise the body is re-joined
from its lines with a line feed, every non-comment line with all
backslashes converted and every comment line preserved verbatim. -/
theorem copy_playlist_rewrite_amended (destBasedir playlistPath content : Str) :
    (copy_playlist_file destBasedir playlistPath content).1
      = pathJoin destBasedir (fileNameStr playlistPath)
    ∧ (has_backslashes content = false →
        (copy_playlist_file destBasedir playlistPath content).2 = content)
    ∧ (has_backslashes content = true →
        (copy_playlist_file destBasedir playlistPath content).2
          = List.intercalate ['\n'] ((rustLines content).map (fun l =>
              if startsHash l = true then l else replace_backslash l))) := by
  refine ⟨rfl, ?_, ?_⟩
  · intro hbs
    simp [copy_playlist_file, hbs]
  · intro hbs
    have hfun : ∀ l : Str,
        (if !startsHash l && l.contains '\\' then replace_backslash l else l)
          = (if startsHash l = true then l else replace_backslash l) := by
      intro l
      by_cases hsh : startsHash l = true
      · have hcond : (!startsHash l && l.contains '\\') = false := by rw [hsh]; rfl
        rw [if_pos hsh, if_neg (by intro hcc; rw [hcond] at hcc; exact Bool.noConfusion hcc)]
      · have hsh' : startsHash l = false := by
          cases h2 : startsHash l
          · rfl
          · exact absurd h2 hsh
        rw [if_neg hsh]
        by_cases hct : l.contains '\\' = true
        · have hcond : (!startsHash l && l.contains '\\') = true := by
            rw [hsh', hct]; rfl
          rw [if_pos hcond]
        · have hct' : l.contains '\\' = false := by
            cases h2 : l.contains '\\'
            · rfl
            · exact absurd h2 hct
          have hcond : (!startsHash l && l.contains '\\') = false := by
            rw [hsh', hct']; rfl
          rw [if_neg (by intro hcc; rw [hcond] at hcc; exact Bool.noConfusion hcc)]
          have hmem : '\\' ∉ l := by
            intro hm
            have h1 : l.contains '\\' = true := List.elem_eq_true_of_mem hm
            rw [h1] at hct'
            exact Bool.noConfusion hct'
          exact (replace_backslash_eq_self l hmem).symm
    simp only [copy_playlist_file, hbs, if_true, rewriteContent]
    simp only [hfun]

/-- Witness for the amended C6 on a concrete playlist whose comment
line holds a backslash. -/
theorem copy_playlist_rewrite_witness :
    (copy_playlist_file "/dst".toList "/m/q.m3u8".toList "#c\\mt\nx\\y".toList).2
      = List.intercalate ['\n'] ((rustLines "#c\\mt\nx\\y".toList).map (fun l =>
          if startsHash l = true then l else replace_backslash l)) :=
  (copy_playlist_rewrite_amended "/dst".toList "/m/q.m3u8".toList "#c\\mt\nx\\y".toList).2.2
    (by decide)


theorem copy_single_state_spec (env : Env) (d : Str) (kg cl : Bool) (b f : Str)
    (st : RunState) :
    ((copy_single_media_file env d kg cl b f st).1).nSuccess = st.nSuccess
    ∧ ((copy_single_media_file env d kg cl b f st).1).emitted = st.emitted
    ∧ ((copy_single_media_file env d kg cl b f st).1).skips = st.skips
    ∧ ((copy_single_media_file env d kg cl b f st).1).events = st.events
    ∧ ((copy_single_media_file env d kg cl b f st).1).copied = st.copied
    ∧ ∀ s : Bool, (copy_single_media_file env d kg cl b f st).2 = .ok s →
        ((copy_single_media_file env d kg cl b f st).1).succCopies
          = st.succCopies ++ (if s then [(b, f)] else []) := by
  unfold copy_single_media_file
  repeat' split <;> try simp_all

theorem copy_single_keep_going_ok (env : Env) (d : Str) (cl : Bool) (b f : Str)
    (st : RunState) :
    (copy_single_media_file env d true cl b f st).2 ≠ RunResult.fatal := by
  unfold copy_single_media_file
  repeat' split <;> try simp_all

theorem copy_media_files_ok_spec (env : Env) (d : Str) (kg cl : Bool) (b : Str) :
    ∀ (fs : List Str) (st st' : RunState) (succ : List Str),
      copy_media_files env d kg cl b fs st = (st', .ok succ) →
      succ.Sublist fs
      ∧ st'.nSuccess = st.nSuccess + succ.length
      ∧ st'.succCopies.length = st.succCopies.length + succ.length
      ∧ st'.skips = st.skips
      ∧ st'.events = st.events
      ∧ st'.copied = st.copied
      ∧ st'.emitted = st.emitted ++ List.range' (st.nSuccess + 1) succ.length := by
  intro fs
  induction fs with
  | nil =>
    intro st st' succ h
    rw [copy_media_files] at h
    injection h with h1 h2
    injection h2 with h3
    subst h1
    subst h3
    simp
  | cons f rest ih =>
    intro st st' succ h
    rw [copy_media_files] at h
    rcases hcs : copy_single_media_file env d kg cl b f st with ⟨st1, r⟩
    rw [hcs] at h
    have hspec := copy_single_state_spec env d kg cl b f st
    rw [hcs] at hspec
    dsimp only at hspec
    obtain ⟨hn1, he1, hk1, hv1, hc1, hs1⟩ := hspec
    cases r with
    | fatal => exact absurd h (by simp)
    | ok s =>
      have hs1' := hs1 s rfl
      cases s with
      | false =>
        dsimp only at h
        rw [if_neg Bool.false_ne_true] at h
        rw [if_neg Bool.false_ne_true] at hs1'
        obtain ⟨hsub, hn, hsc, hk, hv, hc, he⟩ := ih st1 st' succ h
        refine ⟨hsub.cons f, ?_, ?_, ?_, ?_, ?_, ?_⟩
        · rw [hn, hn1]
        · rw [hsc, hs1']
          simp
        · rw [hk, hk1]
        · rw [hv, hv1]
        · rw [hc, hc1]
        · rw [he, he1, hn1]
      | true =>
        dsimp only at h
        rw [if_pos rfl] at hs1'
        rcases hrec : copy_media_files env d kg cl b rest
            {st1 with nSuccess := st1.nSuccess + 1,
                      emitted := st1.emitted ++ [st1.nSuccess + 1]} with ⟨st3, r2⟩
        rw [hrec] at h
        cases r2 with
        | fatal => exact absurd h (by simp)
        | ok succ2 =>
          injection h with h1 h2
          injection h2 with h3
          subst h1
          subst h3
          obtain ⟨hsub, hn, hsc, hk, hv, hc, he⟩ := ih _ _ _ hrec
          dsimp only at hn hsc hk hv hc he
          refine ⟨hsub.cons₂ f, ?_, ?_, ?_, ?_, ?_, ?_⟩
          · rw [hn, hn1]
            simp
            omega
          · rw [hsc, hs1']
            simp
            omega
          · rw [hk, hk1]
          · rw [hv, hv1]
          · rw [hc, hc1]
          · rw [he, he1, hn1]
            simp only [List.length_cons, List.append_assoc, List.singleton_append]
            rw [← List.range'_succ]

theorem copy_media_files_keep_going_ok (env : Env) (d : Str) (cl : Bool) (b : Str) :
    ∀ (fs : List Str) (st : RunState),
      (copy_media_files env d true cl b fs st).2 ≠ RunResult.fatal := by
  intro fs
  induction fs with
  | nil =>
    intro st
    rw [copy_media_files]
    simp
  | cons f rest ih =>
    intro st
    rw [copy_media_files]
    rcases hcs : copy_single_media_file env d true cl b f st with ⟨st1, r⟩
    have hko := copy_single_keep_going_ok env d cl b f st
    rw [hcs] at hko
    cases r with
    | fatal => exact absurd rfl hko
    | ok s =>
      cases s with
      | false =>
        dsimp only
        rw [if_neg Bool.false_ne_true]
        exact ih st1
      | true =>
        dsimp only
        rw [if_pos rfl]
        rcases hrec : copy_media_files env d true cl b rest
            {st1 with nSuccess := st1.nSuccess + 1,
                      emitted := st1.emitted ++ [st1.nSuccess + 1]} with ⟨st3, r2⟩
        cases r2 with
        | fatal =>
          have := ih {st1 with nSuccess := st1.nSuccess + 1,
                               emitted := st1.emitted ++ [st1.nSuccess + 1]}
          rw [hrec] at this
          exact absurd rfl this
        | ok succ2 => simp

/-- C5. Directory-creation and copy failures follow the keep-going
policy. Without keep-going they are fatal at the failing item: the
loop returns at once, the remaining playlists are never examined, and
the run ends in the non-zero-exit outcome. With keep-going the error
is printed and recorded in the tracker with the matching kind
(MediaFailure for the media steps, PlaylistFailure for a failed
playlist), processing continues with the next item, and the failed
item never adds to the successful-media counter or the successful
list (the counter grows by exactly the number of successes). -/
theorem keep_going_error_handling :
    (∀ (env : Env) (d : Str) (cl : Bool) (b f : Str) (st : RunState),
      env.dirExists (destDirAt d f) = false → env.createDirOk (destDirAt d f) = false →
      copy_single_media_file env d false cl b f st = (st, .fatal))
    ∧ (∀ (env : Env) (d : Str) (cl : Bool) (b f : Str) (st : RunState),
      dirStepOk env d f = true → mediaCopyOkAt env d b f = false →
      copy_single_media_file env d false cl b f st
        = ({st with attempts := st.attempts ++ [(b, f)]}, .fatal))
    ∧ (∀ (env : Env) (d : Str) (cl : Bool) (b f : Str) (st : RunState),
      env.dirExists (destDirAt d f) = false → env.createDirOk (destDirAt d f) = false →
      copy_single_media_file env d true cl b f st
        = ({st with failures := st.failures ++ [.mediaFile b f]}, .ok false))
    ∧ (∀ (env : Env) (d : Str) (cl : Bool) (b f : Str) (st : RunState),
      dirStepOk env d f = true → mediaCopyOkAt env d b f = false →
      copy_single_media_file env d true cl b f st
        = ({st with attempts := st.attempts ++ [(b, f)],
                    failures := st.failures ++ [.mediaFile b f]}, .ok false))
    ∧ (∀ (env : Env) (d : Str) (kg cl : Bool) (b : Str) (fs : List Str)
        (st st' : RunState) (succ : List Str),
      copy_media_files env d kg cl b fs st = (st', .ok succ) →
      st'.nSuccess = st.nSuccess + succ.length)
    ∧ (∀ (env : Env) (d : Str) (cl : Bool) (p : Str) (rest : List Str)
        (st : RunState) (sp : Nat),
      process_playlist env p = none →
      normalLoop env d false cl (p :: rest) st sp
        = (({st with failures := st.failures ++ [.playlist p]}, sp), .fatal))
    ∧ (∀ (env : Env) (d : Str) (cl : Bool) (p : Str) (rest : List Str)
        (st : RunState) (sp : Nat),
      process_playlist env p = none →
      normalLoop env d true cl (p :: rest) st sp
        = normalLoop env d true cl rest
            {st with failures := st.failures ++ [.playlist p]} sp)
    ∧ (∀ (env : Env) (d : Str) (cl : Bool) (p : Str) (rest : List Str)
        (st st1 : RunState) (sp : Nat) (bd : Str) (fs : List Str),
      process_playlist env p = some (bd, fs) →
      copy_media_files env d false cl bd
          (filter_already_copied_files bd fs st.copied) st = (st1, .fatal) →
      normalLoop env d false cl (p :: rest) st sp = ((st1, sp), .fatal))
    ∧ (∀ (env : Env) (d : Str) (cl : Bool) (ps : List Str)
        (all : List (Str × Str)) (st : RunState) (sp : Nat),
      prePassGo env false ps [] = .ok all →
      normalLoop env d false cl ps initState 0 = ((st, sp), .fatal) →
      process_normal_operations env d false cl ps = (st, .fatal)) := by
  refine ⟨?_, ?_, ?_, ?_, ?_, ?_, ?_, ?_, ?_⟩
  · intro env d cl b f st h1 h2
    simp only [destDirAt] at h1 h2
    simp [copy_single_media_file, h1, h2]
  · intro env d cl b f st h1 h2
    simp only [dirStepOk, destDirAt] at h1
    simp only [mediaCopyOkAt, destDirAt] at h2
    have hd : (!env.dirExists (pathJoin d (parentStr f))
        && !env.createDirOk (pathJoin d (parentStr f))) = false := by
      rw [← Bool.not_or, h1]
      rfl
    simp [copy_single_media_file, hd, h2]
  · intro env d cl b f st h1 h2
    simp only [destDirAt] at h1 h2
    simp [copy_single_media_file, h1, h2]
  · intro env d cl b f st h1 h2
    simp only [dirStepOk, destDirAt] at h1
    simp only [mediaCopyOkAt, destDirAt] at h2
    have hd : (!env.dirExists (pathJoin d (parentStr f))
        && !env.createDirOk (pathJoin d (parentStr f))) = false := by
      rw [← Bool.not_or, h1]
      rfl
    simp [copy_single_media_file, hd, h2]
  · intro env d kg cl b fs st st' succ h
    exact (copy_media_files_ok_spec env d kg cl b fs st st' succ h).2.1
  · intro env d cl p rest st sp h
    simp [normalLoop, h]
  · intro env d cl p rest st sp h
    simp [normalLoop, h]
  · intro env d cl p rest st st1 sp bd fs h1 h2
    simp [normalLoop, h1, h2]
  · intro env d cl ps all st sp h1 h2
    simp [process_normal_operations, h1, h2]

/-- Witness for C5 at a concrete environment: a directory-creation
failure without keep-going is fatal and state-preserving, and a copy
failure with keep-going records the MediaFailure and reports no
success. -/
theorem keep_going_error_handling_witness :
    copy_single_media_file envDirFail "/d".toList false false "/m".toList "a.flac".toList
        initState = (initState, .fatal)
    ∧ copy_single_media_file envMediaFail "/d".toList true false "/m".toList "a.flac".toList
        initState
      = ({initState with failures := [.mediaFile "/m".toList "a.flac".toList],
                         attempts := [("/m".toList, "a.flac".toList)]}, .ok false) := by
  constructor
  · exact keep_going_error_handling.1 envDirFail _ _ _ _ _ rfl rfl
  · have h := keep_going_error_handling.2.2.2.1 envMediaFail "/d".toList false
      "/m".toList "a.flac".toList initState rfl rfl
    rw [h]
    decide

/-- C7. With lyrics mode on, the sidecar (the media file's stem with
.lrc appended, in the same relative directory) is attempted exactly
when the media copy itself succeeded and the sidecar exists; a
missing sidecar is skipped silently with a successful outcome; the
tracker entries never depend on the sidecar oracles; and without
keep-going an existing sidecar whose copy fails makes the call
fatal. -/
theorem lyrics_sidecar_behavior (env : Env) (d : Str) (kg : Bool) (b f : Str)
    (st : RunState) (hname : (fileNameStr f).isEmpty = false) :
    ((copy_single_media_file env d kg true b f st).1).lyricsAttempts
      = st.lyricsAttempts
        ++ (if dirStepOk env d f && mediaCopyOkAt env d b f
              && env.fileExists (lyricsSrcAt b f)
            then [(b, f)] else [])
    ∧ ((copy_single_media_file env d kg true b f st).1).failures
      = st.failures
        ++ (if kg && !(dirStepOk env d f && mediaCopyOkAt env d b f)
            then [FailureType.mediaFile b f] else [])
    ∧ (dirStepOk env d f = true → mediaCopyOkAt env d b f = true →
       env.fileExists (lyricsSrcAt b f) = true →
       env.copyOk (lyricsSrcAt b f) (lyricsDstAt d f) = false →
       (copy_single_media_file env d false true b f st).2 = RunResult.fatal)
    ∧ (dirStepOk env d f = true → mediaCopyOkAt env d b f = true →
       env.fileExists (lyricsSrcAt b f) = false →
       (copy_single_media_file env d kg true b f st).2 = RunResult.ok true) := by
  unfold copy_single_media_file lyricsSrcAt lyricsDstAt lyricsNameAt dirStepOk
    mediaCopyOkAt destDirAt
  cases hde : env.dirExists (pathJoin d (parentStr f)) <;>
    cases hcd : env.createDirOk (pathJoin d (parentStr f)) <;>
      cases hco : env.copyOk (pathJoin b f)
          (pathJoin (pathJoin d (parentStr f)) (fileNameStr f)) <;>
        cases hfe : env.fileExists (pathJoin (pathJoin b (parentStr f))
            (fileStemStr (fileNameStr f) ++ ".lrc".toList)) <;>
          cases hlc : env.copyOk (pathJoin (pathJoin b (parentStr f))
                (fileStemStr (fileNameStr f) ++ ".lrc".toList))
              (pathJoin (pathJoin d (parentStr f))
                (fileStemStr (fileNameStr f) ++ ".lrc".toList)) <;>
            cases kg <;>
              simp_all [hname]

/-- Witness for C7 at a concrete environment: the failing sidecar of a
successfully copied media file was attempted, and without keep-going
the failure is fatal. -/
theorem lyrics_sidecar_behavior_witness :
    ((copy_single_media_file envLyricsFail "/d".toList false true "/m".toList
        "a.flac".toList initState).1).lyricsAttempts
      = [("/m".toList, "a.flac".toList)]
    ∧ (copy_single_media_file envLyricsFail "/d".toList false true "/m".toList
        "a.flac".toList initState).2 = RunResult.fatal := by
  constructor
  · have h := (lyrics_sidecar_behavior envLyricsFail "/d".toList false "/m".toList
      "a.flac".toList initState (by decide)).1
    rw [h]
    decide
  · exact (lyrics_sidecar_behavior envLyricsFail "/d".toList false "/m".toList
      "a.flac".toList initState (by decide)).2.2.1 (by decide) (by decide) (by decide)
      (by decide)

theorem prePassGo_keep_going (env : Env) :
    ∀ (ps : List Str) (acc : List (Str × Str)),
      prePassGo env true ps acc = .ok (prePassAll env ps acc) := by
  intro ps
  induction ps with
  | nil => intro acc; rfl
  | cons p rest ih =>
    intro acc
    rw [prePassGo, prePassAll]
    cases hpe : env.extract p with
    | none => simp [ih]
    | some bdfs =>
      rcases bdfs with ⟨bd, fs⟩
      simp [ih]

theorem normalLoop_keep_going_completes (env : Env) (d : Str) (cl : Bool) :
    ∀ (ps : List Str) (st : RunState) (sp : Nat),
      ∃ st', normalLoop env d true cl ps st sp
        = ((st', sp + (ps.filter (fun p => (process_playlist env p).isSome)).length),
           .ok ()) := by
  intro ps
  induction ps with
  | nil =>
    intro st sp
    exact ⟨st, by simp [normalLoop]⟩
  | cons p rest ih =>
    intro st sp
    rw [normalLoop]
    cases hpp : process_playlist env p with
    | none =>
      obtain ⟨st', hst'⟩ := ih {st with failures := st.failures ++ [.playlist p]} sp
      refine ⟨st', ?_⟩
      simp [hpp, hst', List.filter_cons]
    | some bdfs =>
      rcases bdfs with ⟨bd, fs⟩
      rcases hcm : copy_media_files env d true cl bd
          (filter_already_copied_files bd fs st.copied) st with ⟨st1, r⟩
      cases r with
      | fatal =>
        have hko := copy_media_files_keep_going_ok env d cl bd
          (filter_already_copied_files bd fs st.copied) st
        rw [hcm] at hko
        exact absurd rfl hko
      | ok succ =>
        obtain ⟨st', hst'⟩ := ih
          {st1 with copied := succ.foldl (fun c g => insertUnique (bd, g) c) st1.copied}
          (sp + 1)
        refine ⟨st', ?_⟩
        have harith : sp + 1 + (rest.filter
            (fun p => (process_playlist env p).isSome)).length
          = sp + ((rest.filter (fun p => (process_playlist env p).isSome)).length + 1) := by
          omega
        simp [hpp, hcm, hst', List.filter_cons, harith]

/-- C10. In normal mode with keep-going, the run always completes and
the successful-playlist count of the summary is exactly the number of
playlists whose playlist-file copy and parsing succeeded, whatever
the media copy oracles do: media failures never withhold the playlist
count. -/
theorem playlist_success_independent_of_media (env : Env) (d : Str) (cl : Bool)
    (ps : List Str) :
    ∃ st, process_normal_operations env d true cl ps
      = (st, .ok ((ps.filter (fun p => (process_playlist env p).isSome)).length,
                  ps.length, st.nSuccess, (prePassAll env ps []).length)) := by
  obtain ⟨st', h⟩ := normalLoop_keep_going_completes env d cl ps initState 0
  refine ⟨st', ?_⟩
  unfold process_normal_operations
  rw [prePassGo_keep_going, h]
  simp

theorem copy_media_files_events (env : Env) (d : Str) (kg cl : Bool) (b : Str) :
    ∀ (fs : List Str) (st : RunState),
      ((copy_media_files env d kg cl b fs st).1).events = st.events
      ∧ ((copy_media_files env d kg cl b fs st).1).skips = st.skips := by
  intro fs
  induction fs with
  | nil =>
    intro st
    rw [copy_media_files]
    exact ⟨rfl, rfl⟩
  | cons f rest ih =>
    intro st
    rw [copy_media_files]
    rcases hcs : copy_single_media_file env d kg cl b f st with ⟨st1, r⟩
    have hspec := copy_single_state_spec env d kg cl b f st
    rw [hcs] at hspec
    dsimp only at hspec
    cases r with
    | fatal => exact ⟨hspec.2.2.2.1, hspec.2.2.1⟩
    | ok s =>
      cases s with
      | false =>
        dsimp only
        rw [if_neg Bool.false_ne_true]
        obtain ⟨hv, hk⟩ := ih st1
        exact ⟨hv.trans hspec.2.2.2.1, hk.trans hspec.2.2.1⟩
      | true =>
        dsimp only
        rw [if_pos rfl]
        rcases hrec : copy_media_files env d kg cl b rest
            {st1 with nSuccess := st1.nSuccess + 1,
                      emitted := st1.emitted ++ [st1.nSuccess + 1]} with ⟨st3, r2⟩
        obtain ⟨hv, hk⟩ := ih {st1 with nSuccess := st1.nSuccess + 1,
                                        emitted := st1.emitted ++ [st1.nSuccess + 1]}
        rw [hrec] at hv hk
        dsimp only at hv hk
        cases r2 with
        | fatal => exact ⟨hv.trans hspec.2.2.2.1, hk.trans hspec.2.2.1⟩
        | ok succ2 => exact ⟨hv.trans hspec.2.2.2.1, hk.trans hspec.2.2.1⟩

theorem retry_playlist_spec_events (env : Env) (d : Str) (kg cl : Bool) (p : Str)
    (st : RunState) :
    ((retry_playlist env d kg cl p st).1).events = st.events ++ [.playlistRetry p]
    ∧ ((retry_playlist env d kg cl p st).1).skips = st.skips := by
  unfold retry_playlist
  cases hpp : process_playlist env p with
  | none =>
    cases kg <;> simp
  | some bdfs =>
    rcases bdfs with ⟨bd, fs⟩
    dsimp only
    constructor
    · split
      next st1 succ heq =>
        have hev := (copy_media_files_events env d kg cl bd
          (filter_already_copied_files bd fs st.copied)
          {st with events := st.events ++ [RetryEvent.playlistRetry p]}).1
        rw [heq] at hev
        simpa using hev
      next st1 heq =>
        have hev := (copy_media_files_events env d kg cl bd
          (filter_already_copied_files bd fs st.copied)
          {st with events := st.events ++ [RetryEvent.playlistRetry p]}).1
        rw [heq] at hev
        cases kg <;> simpa using hev
    · split
      next st1 succ heq =>
        have hev := (copy_media_files_events env d kg cl bd
          (filter_already_copied_files bd fs st.copied)
          {st with events := st.events ++ [RetryEvent.playlistRetry p]}).2
        rw [heq] at hev
        simpa using hev
      next st1 heq =>
        have hev := (copy_media_files_events env d kg cl bd
          (filter_already_copied_files bd fs st.copied)
          {st with events := st.events ++ [RetryEvent.playlistRetry p]}).2
        rw [heq] at hev
        cases kg <;> simpa using hev

theorem retry_media_file_spec_events (env : Env) (d : Str) (kg cl : Bool) (b f : Str)
    (st : RunState) :
    ((retry_media_file env d kg cl b f st).1).events
      = st.events ++ [.mediaRetry b f] := by
  unfold retry_media_file
  dsimp only
  by_cases hmem : (b, f) ∈ st.copied
  · rw [if_pos hmem]
  · rw [if_neg hmem]
    rcases hcm : copy_media_files env d kg cl b [f]
        {st with events := st.events ++ [RetryEvent.mediaRetry b f]} with ⟨st1, r⟩
    have hev := copy_media_files_events env d kg cl b [f]
      {st with events := st.events ++ [RetryEvent.mediaRetry b f]}
    rw [hcm] at hev
    dsimp only at hev
    cases r with
    | fatal => cases kg <;> simpa using hev.1
    | ok succ => simpa using hev.1

theorem retryPlaylistLoop_events (env : Env) (d : Str) (kg cl : Bool) :
    ∀ (L : List Str) (st : RunState) (sp : Nat) (st' : RunState) (sp' : Nat),
      retryPlaylistLoop env d kg cl L st sp = ((st', sp'), .ok ()) →
      st'.events = st.events ++ L.map RetryEvent.playlistRetry := by
  intro L
  induction L with
  | nil =>
    intro st sp st' sp' h
    rw [retryPlaylistLoop] at h
    injection h with h1 h2
    injection h1 with h3 h4
    subst h3
    simp
  | cons p rest ih =>
    intro st sp st' sp' h
    rw [retryPlaylistLoop] at h
    rcases hrp : retry_playlist env d kg cl p st with ⟨st1, r⟩
    rw [hrp] at h
    have hev := retry_playlist_spec_events env d kg cl p st
    rw [hrp] at hev
    dsimp only at hev
    cases r with
    | fatal => exact absurd h (by simp)
    | ok sc =>
      have := ih _ _ _ _ h
      dsimp only at this
      rw [this, hev.1]
      simp

theorem retryMediaLoop_events (env : Env) (d : Str) (kg cl : Bool) :
    ∀ (L : List (Str × Str)) (st : RunState) (st' : RunState),
      retryMediaLoop env d kg cl L st = (st', .ok ()) →
      st'.events = st.events ++ L.map (fun bf => RetryEvent.mediaRetry bf.1 bf.2) := by
  intro L
  induction L with
  | nil =>
    intro st st' h
    rw [retryMediaLoop] at h
    injection h with h1 h2
    subst h1
    simp
  | cons bf rest ih =>
    intro st st' h
    rw [retryMediaLoop] at h
    rcases hrm : retry_media_file env d kg cl bf.1 bf.2 st with ⟨st1, r⟩
    rw [hrm] at h
    have hev := retry_media_file_spec_events env d kg cl bf.1 bf.2 st
    rw [hrm] at hev
    dsimp only at hev
    cases r with
    | fatal => exact absurd h (by simp)
    | ok count =>
      have := ih _ _ h
      dsimp only at this
      rw [this, hev]
      simp

/-- C8. All P entries of the failure log are processed first in log
order, then all M entries, as the retry-level event order of any
completed retry run shows; and a bare media entry already present in
the retry run's copied set is skipped with a skipping message,
counted as one success, and the copy machinery is not invoked on
it. -/
theorem retry_order_and_skip :
    (∀ (env : Env) (d : Str) (kg cl : Bool) (b f : Str) (st : RunState),
      (b, f) ∈ st.copied →
      retry_media_file env d kg cl b f st
        = ({st with events := st.events ++ [.mediaRetry b f],
                    skips := st.skips ++ [(b, f)]}, .ok 1))
    ∧ (∀ (env : Env) (d : Str) (kg cl : Bool) (content : Str) (st : RunState)
        (q : Nat × Nat × Nat × Nat),
      retry_operations env d kg cl content = (st, .ok q) →
      st.events = (parse_error_file content).1.map RetryEvent.playlistRetry
        ++ (parse_error_file content).2.map (fun bf => RetryEvent.mediaRetry bf.1 bf.2)) := by
  constructor
  · intro env d kg cl b f st hmem
    unfold retry_media_file
    dsimp only
    rw [if_pos hmem]
  · intro env d kg cl content st q h
    unfold retry_operations at h
    dsimp only at h
    rcases hpl : retryPlaylistLoop env d kg cl (parse_error_file content).1 initState 0
        with ⟨⟨st1, sp1⟩, r1⟩
    rw [hpl] at h
    cases r1 with
    | fatal => exact absurd h (by simp)
    | ok u =>
      dsimp only at h
      rcases hml : retryMediaLoop env d kg cl (parse_error_file content).2 st1
          with ⟨st2, r2⟩
      rw [hml] at h
      cases r2 with
      | fatal => exact absurd h (by simp)
      | ok u2 =>
        injection h with h1 h2
        subst h1
        have he1 := retryPlaylistLoop_events env d kg cl _ _ _ _ _ hpl
        have he2 := retryMediaLoop_events env d kg cl _ _ _ hml
        rw [he2, he1]
        simp [initState]

/-- Witness for C8: a concrete skipped bare media entry, and the
event order of a concrete completed retry run. -/
theorem retry_order_and_skip_witness :
    retry_media_file envRetry "/d".toList true false "/m".toList "x.flac".toList
        {initState with copied := [("/m".toList, "x.flac".toList)]}
      = ({initState with copied := [("/m".toList, "x.flac".toList)],
                         events := [.mediaRetry "/m".toList "x.flac".toList],
                         skips := [("/m".toList, "x.flac".toList)]}, .ok 1)
    ∧ (retry_operations envRetry "/d".toList true false
        "P /m/p.m3u8\nM /m/x.flac\n".toList).1.events
      = (parse_error_file "P /m/p.m3u8\nM /m/x.flac\n".toList).1.map
          RetryEvent.playlistRetry
        ++ (parse_error_file "P /m/p.m3u8\nM /m/x.flac\n".toList).2.map
          (fun bf => RetryEvent.mediaRetry bf.1 bf.2) := by
  constructor
  · have h := retry_order_and_skip.1 envRetry "/d".toList true false "/m".toList
      "x.flac".toList {initState with copied := [("/m".toList, "x.flac".toList)]}
      (by decide)
    rw [h]
    decide
  · exact retry_order_and_skip.2 envRetry "/d".toList true false
      "P /m/p.m3u8\nM /m/x.flac\n".toList
      (retry_operations envRetry "/d".toList true false
        "P /m/p.m3u8\nM /m/x.flac\n".toList).1 (1, 1, 3, 1) (by decide)

theorem retry_playlist_count_spec (env : Env) (d : Str) (kg cl : Bool) (p : Str)
    (st st1 : RunState) (sc : Bool × Nat)
    (h : retry_playlist env d kg cl p st = (st1, .ok sc)) :
    st1.succCopies.length = st.succCopies.length + sc.2
    ∧ st1.nSuccess = st.nSuccess + sc.2
    ∧ st1.skips = st.skips := by
  unfold retry_playlist at h
  cases hpp : process_playlist env p with
  | none =>
    rw [hpp] at h
    dsimp only at h
    cases kg with
    | false => exact absurd h (by simp)
    | true =>
      rw [if_pos rfl] at h
      injection h with h1 h2
      injection h2 with h3
      subst h1
      subst h3
      simp
  | some bdfs =>
    rcases bdfs with ⟨bd, fs⟩
    rw [hpp] at h
    dsimp only at h
    split at h
    next st2 succ heq =>
      injection h with h1 h2
      injection h2 with h3
      subst h1
      subst h3
      have hspec := copy_media_files_ok_spec env d kg cl bd _ _ _ _ heq
      dsimp only at hspec
      refine ⟨?_, ?_, ?_⟩
      · simpa using hspec.2.2.1
      · simpa using hspec.2.1
      · simpa using hspec.2.2.2.1
    next st2 heq =>
      cases kg with
      | false => exact absurd h (by simp)
      | true =>
        have hko := copy_media_files_keep_going_ok env d cl bd
          (filter_already_copied_files bd fs
            ({st with events := st.events ++ [RetryEvent.playlistRetry p]}).copied)
          {st with events := st.events ++ [RetryEvent.playlistRetry p]}
        rw [heq] at hko
        exact absurd rfl hko

theorem retry_media_file_count_spec (env : Env) (d : Str) (kg cl : Bool) (b f : Str)
    (st st1 : RunState) (n : Nat)
    (h : retry_media_file env d kg cl b f st = (st1, .ok n)) :
    ∃ k m, st1.succCopies.length = st.succCopies.length + k
      ∧ st1.skips.length = st.skips.length + m
      ∧ st1.nSuccess = st.nSuccess + k
      ∧ n = k + m := by
  unfold retry_media_file at h
  dsimp only at h
  by_cases hmem : (b, f) ∈ st.copied
  · rw [if_pos hmem] at h
    injection h with h1 h2
    injection h2 with h3
    subst h1
    subst h3
    exact ⟨0, 1, by simp, by simp, by simp, rfl⟩
  · rw [if_neg hmem] at h
    split at h
    next st2 succ heq =>
      injection h with h1 h2
      injection h2 with h3
      subst h1
      subst h3
      have hspec := copy_media_files_ok_spec env d kg cl b _ _ _ _ heq
      dsimp only at hspec
      refine ⟨succ.length, 0, ?_, ?_, ?_, by simp⟩
      · simpa using hspec.2.2.1
      · simpa using congrArg List.length hspec.2.2.2.1
      · simpa using hspec.2.1
    next st2 heq =>
      cases kg with
      | false => exact absurd h (by simp)
      | true =>
        have hko := copy_media_files_keep_going_ok env d cl b [f]
          {st with events := st.events ++ [RetryEvent.mediaRetry b f]}
        rw [heq] at hko
        exact absurd rfl hko

theorem retryPlaylistLoop_count (env : Env) (d : Str) (kg cl : Bool) :
    ∀ (L : List Str) (st : RunState) (sp : Nat) (st' : RunState) (sp' : Nat),
      retryPlaylistLoop env d kg cl L st sp = ((st', sp'), .ok ()) →
      ∃ k, st'.succCopies.length = st.succCopies.length + k
        ∧ st'.nSuccess = st.nSuccess + 2 * k
        ∧ st'.skips = st.skips := by
  intro L
  induction L with
  | nil =>
    intro st sp st' sp' h
    rw [retryPlaylistLoop] at h
    injection h with h1 h2
    injection h1 with h3 h4
    subst h3
    exact ⟨0, by simp, by simp, rfl⟩
  | cons p rest ih =>
    intro st sp st' sp' h
    rw [retryPlaylistLoop] at h
    rcases hrp : retry_playlist env d kg cl p st with ⟨st1, r⟩
    rw [hrp] at h
    cases r with
    | fatal => exact absurd h (by simp)
    | ok sc =>
      dsimp only at h
      obtain ⟨hsc, hns, hsk⟩ := retry_playlist_count_spec env d kg cl p st st1 sc hrp
      obtain ⟨k2, hk2a, hk2b, hk2c⟩ := ih _ _ _ _ h
      dsimp only at hk2a hk2b hk2c
      refine ⟨sc.2 + k2, ?_, ?_, ?_⟩
      · rw [hk2a, hsc]
        omega
      · rw [hk2b, hns]
        omega
      · rw [hk2c, hsk]

theorem retryMediaLoop_count (env : Env) (d : Str) (kg cl : Bool) :
    ∀ (L : List (Str × Str)) (st : RunState) (st' : RunState),
      retryMediaLoop env d kg cl L st = (st', .ok ()) →
      ∃ k m, st'.succCopies.length = st.succCopies.length + k
        ∧ st'.skips.length = st.skips.length + m
        ∧ st'.nSuccess = st.nSuccess + 2 * k + m := by
  intro L
  induction L with
  | nil =>
    intro st st' h
    rw [retryMediaLoop] at h
    injection h with h1 h2
    subst h1
    exact ⟨0, 0, by simp, by simp, by simp⟩
  | cons bf rest ih =>
    intro st st' h
    rw [retryMediaLoop] at h
    rcases hrm : retry_media_file env d kg cl bf.1 bf.2 st with ⟨st1, r⟩
    rw [hrm] at h
    cases r with
    | fatal => exact absurd h (by simp)
    | ok n =>
      dsimp only at h
      obtain ⟨k1, m1, hs1, hk1, hn1, hn⟩ :=
        retry_media_file_count_spec env d kg cl bf.1 bf.2 st st1 n hrm
      obtain ⟨k2, m2, hk2a, hk2b, hk2c⟩ := ih _ _ h
      dsimp only at hk2a hk2b hk2c
      refine ⟨k1 + k2, m1 + m2, ?_, ?_, ?_⟩
      · rw [hk2a, hs1]
        omega
      · rw [hk2b, hk1]
        omega
      · rw [hk2c, hn1, hn]
        omega

/-- C9. In a completed retry run the reported successful-media value
equals twice the number of media files actually copied plus the
number of bare entries skipped as already copied (each real copy is
counted once inside copy_media_files and once more when
retry_operations re-adds the returned per-call count), while the
reported total is just the number of M lines of the log, so the
reported successful value can exceed the reported total. -/
theorem retry_double_count (env : Env) (d : Str) (kg cl : Bool) (content : Str)
    (q : Nat × Nat × Nat × Nat)
    (h : (retry_operations env d kg cl content).2 = .ok q) :
    q.2.2.1 = 2 * ((retry_operations env d kg cl content).1).succCopies.length
        + ((retry_operations env d kg cl content).1).skips.length
    ∧ q.2.2.2 = (parse_error_file content).2.length := by
  rcases hrun : retry_operations env d kg cl content with ⟨st, r⟩
  rw [hrun] at h
  dsimp only at h
  subst h
  unfold retry_operations at hrun
  dsimp only at hrun
  rcases hpl : retryPlaylistLoop env d kg cl (parse_error_file content).1 initState 0
      with ⟨⟨st1, sp1⟩, r1⟩
  rw [hpl] at hrun
  cases r1 with
  | fatal => exact absurd hrun (by simp)
  | ok u =>
    dsimp only at hrun
    rcases hml : retryMediaLoop env d kg cl (parse_error_file content).2 st1
        with ⟨st2, r2⟩
    rw [hml] at hrun
    cases r2 with
    | fatal => exact absurd hrun (by simp)
    | ok u2 =>
      injection hrun with h1 h2
      injection h2 with h3
      subst h1
      subst h3
      obtain ⟨k1, hk1a, hk1b, hk1c⟩ := retryPlaylistLoop_count env d kg cl _ _ _ _ _ hpl
      obtain ⟨k2, m2, hk2a, hk2b, hk2c⟩ := retryMediaLoop_count env d kg cl _ _ _ hml
      constructor
      · dsimp only
        rw [hk2c, hk1b, hk2a, hk1a]
        rw [congrArg List.length hk1c] at hk2b
        rw [hk2b]
        simp [initState]
        omega
      · rfl

/-- Witness for C9: a concrete completed retry run whose log holds one
playlist line and one media line; the run copies one file through the
playlist (counted twice) and skips the bare media entry (counted
once), so the summary reports three successes out of a total of one. -/
theorem retry_double_count_witness :
    (3 : Nat) = 2 * ((retry_operations envRetry "/d".toList true false
          "P /m/p.m3u8\nM /m/x.flac\n".toList).1).succCopies.length
        + ((retry_operations envRetry "/d".toList true false
          "P /m/p.m3u8\nM /m/x.flac\n".toList).1).skips.length
    ∧ (1 : Nat) = (parse_error_file "P /m/p.m3u8\nM /m/x.flac\n".toList).2.length
    ∧ 3 > 1 := by
  have h := retry_double_count envRetry "/d".toList true false
    "P /m/p.m3u8\nM /m/x.flac\n".toList (1, 1, 3, 1) (by decide)
  exact ⟨h.1, h.2, by decide⟩

theorem contains_eq_true_iff_mem (l : List (Str × Str)) (x : Str × Str) :
    l.contains x = true ↔ x ∈ l :=
  ⟨List.mem_of_elem_eq_true, List.elem_eq_true_of_mem⟩

theorem contains_eq_false_iff_not_mem (l : List (Str × Str)) (x : Str × Str) :
    l.contains x = false ↔ x ∉ l := by
  rw [← contains_eq_true_iff_mem]
  cases l.contains x <;> simp

theorem mem_insertUnique (x y : Str × Str) (l : List (Str × Str)) :
    x ∈ insertUnique y l ↔ x = y ∨ x ∈ l := by
  unfold insertUnique
  split
  next hin =>
    constructor
    · exact fun h => Or.inr h
    · rintro (rfl | h)
      · exact hin
      · exact h
  next hin =>
    simp [List.mem_append, or_comm]

theorem insertUnique_nodup (y : Str × Str) (l : List (Str × Str)) (h : l.Nodup) :
    (insertUnique y l).Nodup := by
  unfold insertUnique
  split
  next => exact h
  next hin =>
    rw [List.nodup_append]
    refine ⟨h, List.nodup_singleton y, fun a ha hb => hin ?_⟩
    have : a = y := by simpa using hb
    exact this ▸ ha

theorem foldl_insertUnique_nodup (bd : Str) :
    ∀ (gs : List Str) (c : List (Str × Str)), c.Nodup →
      (gs.foldl (fun a g => insertUnique (bd, g) a) c).Nodup := by
  intro gs
  induction gs with
  | nil => intro c h; exact h
  | cons g gs ih =>
    intro c h
    exact ih _ (insertUnique_nodup (bd, g) c h)

theorem mem_foldl_insertUnique_of_mem (bd : Str) :
    ∀ (gs : List Str) (c : List (Str × Str)) (x : Str × Str), x ∈ c →
      x ∈ gs.foldl (fun a g => insertUnique (bd, g) a) c := by
  intro gs
  induction gs with
  | nil => intro c x h; exact h
  | cons g gs ih =>
    intro c x h
    exact ih _ x ((mem_insertUnique x (bd, g) c).mpr (Or.inr h))

theorem mem_foldl_insertUnique_self (bd : Str) :
    ∀ (gs : List Str) (c : List (Str × Str)) (g : Str), g ∈ gs →
      (bd, g) ∈ gs.foldl (fun a g => insertUnique (bd, g) a) c := by
  intro gs
  induction gs with
  | nil => intro c g h; exact absurd h (List.not_mem_nil g)
  | cons g' gs ih =>
    intro c g h
    rcases List.mem_cons.mp h with rfl | h2
    · exact mem_foldl_insertUnique_of_mem bd gs _ _
        ((mem_insertUnique _ _ c).mpr (Or.inl rfl))
    · exact ih _ g h2

theorem prePassAll_nodup (env : Env) :
    ∀ (ps : List Str) (acc : List (Str × Str)), acc.Nodup →
      (prePassAll env ps acc).Nodup := by
  intro ps
  induction ps with
  | nil => intro acc h; exact h
  | cons p rest ih =>
    intro acc h
    rw [prePassAll]
    cases hpe : env.extract p with
    | none => exact ih acc h
    | some bdfs =>
      rcases bdfs with ⟨bd, fs⟩
      exact ih _ (foldl_insertUnique_nodup bd fs acc h)

theorem subset_prePassAll (env : Env) :
    ∀ (ps : List Str) (acc : List (Str × Str)) (x : Str × Str), x ∈ acc →
      x ∈ prePassAll env ps acc := by
  intro ps
  induction ps with
  | nil => intro acc x h; exact h
  | cons p rest ih =>
    intro acc x h
    rw [prePassAll]
    cases hpe : env.extract p with
    | none => exact ih acc x h
    | some bdfs =>
      rcases bdfs with ⟨bd, fs⟩
      exact ih _ x (mem_foldl_insertUnique_of_mem bd fs acc x h)

theorem mem_prePassAll (env : Env) :
    ∀ (ps : List Str) (acc : List (Str × Str)) (p : Str) (bd : Str) (fs : List Str)
      (g : Str), p ∈ ps → env.extract p = some (bd, fs) → g ∈ fs →
      (bd, g) ∈ prePassAll env ps acc := by
  intro ps
  induction ps with
  | nil => intro acc p bd fs g h; exact absurd h (List.not_mem_nil p)
  | cons p' rest ih =>
    intro acc p bd fs g hmem hpe hg
    rw [prePassAll]
    rcases List.mem_cons.mp hmem with rfl | h2
    · rw [hpe]
      exact subset_prePassAll env rest _ _ (mem_foldl_insertUnique_self bd fs acc g hg)
    · cases hpe' : env.extract p' with
      | none => exact ih acc p bd fs g h2 hpe hg
      | some bdfs =>
        rcases bdfs with ⟨bd', fs'⟩
        exact ih _ p bd fs g h2 hpe hg

theorem foldl_insertUnique_eq_filter (bd : Str) :
    ∀ (gs : List Str) (c : List (Str × Str)), gs.Nodup →
      gs.foldl (fun a g => insertUnique (bd, g) a) c
        = c ++ (gs.filter (fun g => !c.contains (bd, g))).map (fun g => (bd, g)) := by
  intro gs
  induction gs with
  | nil => intro c _; simp
  | cons g gs ih =>
    intro c hnd
    rw [List.nodup_cons] at hnd
    rw [List.foldl_cons, List.filter_cons]
    by_cases hin : (bd, g) ∈ c
    · have hcn : c.contains (bd, g) = true := (contains_eq_true_iff_mem c _).mpr hin
      rw [hcn]
      have hiu : insertUnique (bd, g) c = c := by
        unfold insertUnique
        rw [if_pos hin]
      rw [hiu]
      simpa using ih c hnd.2
    · have hcn : c.contains (bd, g) = false := (contains_eq_false_iff_not_mem c _).mpr hin
      rw [hcn]
      have hiu : insertUnique (bd, g) c = c ++ [(bd, g)] := by
        unfold insertUnique
        rw [if_neg hin]
      rw [hiu, ih (c ++ [(bd, g)]) hnd.2]
      have hfeq : gs.filter (fun g' => !(c ++ [(bd, g)]).contains (bd, g'))
          = gs.filter (fun g' => !c.contains (bd, g')) := by
        apply List.filter_congr
        intro g' hg'
        have hne : ¬ (bd, g') = (bd, g) := by
          intro hcc
          exact hnd.1 (by injection hcc with h1 h2; exact h2 ▸ hg')
        cases hc : c.contains (bd, g') with
        | true =>
          have : (c ++ [(bd, g)]).contains (bd, g') = true :=
            (contains_eq_true_iff_mem _ _).mpr
              (List.mem_append_left _ ((contains_eq_true_iff_mem c _).mp hc))
          rw [this]
        | false =>
          have : (c ++ [(bd, g)]).contains (bd, g') = false := by
            rw [contains_eq_false_iff_not_mem]
            intro hmm
            rcases List.mem_append.mp hmm with h1 | h1
            · exact (contains_eq_false_iff_not_mem c _).mp hc h1
            · exact hne (by simpa using h1)
          rw [this]
      rw [hfeq]
      simp

theorem copy_single_all_success (env : Env) (d : Str) (kg cl : Bool) (b f : Str)
    (st : RunState) (HD : ∀ dd, env.dirExists dd = true)
    (HC : ∀ s t, env.copyOk s t = true) :
    (copy_single_media_file env d kg cl b f st).2 = .ok true
    ∧ ((copy_single_media_file env d kg cl b f st).1).attempts
        = st.attempts ++ [(b, f)] := by
  unfold copy_single_media_file
  simp only [HD, HC, Bool.not_true, Bool.false_and]
  repeat' split <;> try simp_all

theorem copy_media_files_all_success (env : Env) (d : Str) (kg cl : Bool) (b : Str)
    (HD : ∀ dd, env.dirExists dd = true) (HC : ∀ s t, env.copyOk s t = true) :
    ∀ (fs : List Str) (st : RunState),
      (copy_media_files env d kg cl b fs st).2 = .ok fs
      ∧ ((copy_media_files env d kg cl b fs st).1).attempts
          = st.attempts ++ fs.map (fun g => (b, g)) := by
  intro fs
  induction fs with
  | nil =>
    intro st
    rw [copy_media_files]
    exact ⟨rfl, by simp⟩
  | cons f rest ih =>
    intro st
    rw [copy_media_files]
    rcases hcs : copy_single_media_file env d kg cl b f st with ⟨st1, r⟩
    have hall := copy_single_all_success env d kg cl b f st HD HC
    rw [hcs] at hall
    dsimp only at hall
    obtain ⟨h2, hatt⟩ := hall
    subst h2
    dsimp only
    rw [if_pos rfl]
    rcases hrec : copy_media_files env d kg cl b rest
        {st1 with nSuccess := st1.nSuccess + 1,
                  emitted := st1.emitted ++ [st1.nSuccess + 1]} with ⟨st3, r2⟩
    have hrall := ih {st1 with nSuccess := st1.nSuccess + 1,
                               emitted := st1.emitted ++ [st1.nSuccess + 1]}
    rw [hrec] at hrall
    dsimp only at hrall
    obtain ⟨h3, hatt3⟩ := hrall
    subst h3
    refine ⟨rfl, ?_⟩
    dsimp only
    rw [hatt3, hatt]
    simp

theorem prePassGo_all_some (env : Env) (HE : ∀ p, (env.extract p).isSome = true) :
    ∀ (kg : Bool) (ps : List Str) (acc : List (Str × Str)),
      prePassGo env kg ps acc = .ok (prePassAll env ps acc) := by
  intro kg ps
  induction ps with
  | nil => intro acc; rfl
  | cons p rest ih =>
    intro acc
    rw [prePassGo, prePassAll]
    cases hpe : env.extract p with
    | none =>
      have := HE p
      rw [hpe] at this
      exact absurd this (by simp)
    | some bdfs =>
      rcases bdfs with ⟨bd, fs⟩
      simp [ih]

theorem prePassGo_ok_eq (env : Env) :
    ∀ (kg : Bool) (ps : List Str) (acc : List (Str × Str)) (all : List (Str × Str)),
      prePassGo env kg ps acc = .ok all → all = prePassAll env ps acc := by
  intro kg ps
  induction ps with
  | nil =>
    intro acc all h
    rw [prePassGo] at h
    rw [prePassAll]
    injection h with h1
    exact h1.symm
  | cons p rest ih =>
    intro acc all h
    rw [prePassGo] at h
    rw [prePassAll]
    cases hpe : env.extract p with
    | none =>
      rw [hpe] at h
      dsimp only at h
      cases kg with
      | false => exact absurd h (by simp)
      | true =>
        rw [if_pos rfl] at h
        exact ih acc all h
    | some bdfs =>
      rcases bdfs with ⟨bd, fs⟩
      rw [hpe] at h
      dsimp only at h
      exact ih _ all h

theorem process_playlist_extract (env : Env) (p : Str) (bd : Str) (fs : List Str)
    (h : process_playlist env p = some (bd, fs)) : env.extract p = some (bd, fs) := by
  unfold process_playlist at h
  by_cases hpc : env.playlistCopyOk p = true
  · rwa [if_pos hpc] at h
  · rw [if_neg hpc] at h
    exact absurd h (by simp)

theorem normalLoop_all_success (env : Env) (d : Str) (kg cl : Bool)
    (HD : ∀ dd, env.dirExists dd = true) (HC : ∀ s t, env.copyOk s t = true)
    (HP : ∀ p, env.playlistCopyOk p = true) (HE : ∀ p, (env.extract p).isSome = true)
    (HND : ∀ p bd fs, env.extract p = some (bd, fs) → fs.Nodup) :
    ∀ (ps : List Str) (st : RunState) (sp : Nat),
      ∃ st', normalLoop env d kg cl ps st sp = ((st', sp + ps.length), .ok ())
        ∧ st'.copied = prePassAll env ps st.copied
        ∧ ∃ newIt, prePassAll env ps st.copied = st.copied ++ newIt
            ∧ st'.attempts = st.attempts ++ newIt
            ∧ st'.nSuccess = st.nSuccess + newIt.length := by
  intro ps
  induction ps with
  | nil =>
    intro st sp
    refine ⟨st, by simp [normalLoop], by rw [prePassAll], [], ?_, by simp, by simp⟩
    rw [prePassAll]
    simp
  | cons p rest ih =>
    intro st sp
    cases hpe : env.extract p with
    | none =>
      have := HE p
      rw [hpe] at this
      exact absurd this (by simp)
    | some bdfs =>
      rcases bdfs with ⟨bd, fs⟩
      have hpp : process_playlist env p = some (bd, fs) := by
        unfold process_playlist
        rw [if_pos (HP p), hpe]
      have hndfs : fs.Nodup := HND p bd fs hpe
      rw [normalLoop, hpp]
      dsimp only
      rcases hcm : copy_media_files env d kg cl bd
          (filter_already_copied_files bd fs st.copied) st with ⟨st1, r⟩
      have hall := copy_media_files_all_success env d kg cl bd HD HC
        (filter_already_copied_files bd fs st.copied) st
      rw [hcm] at hall
      dsimp only at hall
      obtain ⟨h2, hatt⟩ := hall
      subst h2
      dsimp only
      have hspec := copy_media_files_ok_spec env d kg cl bd
        (filter_already_copied_files bd fs st.copied) st st1
        (filter_already_copied_files bd fs st.copied) hcm
      obtain ⟨_, hn1, _, _, _, hc1, _⟩ := hspec
      have htc_nd : (filter_already_copied_files bd fs st.copied).Nodup := by
        unfold filter_already_copied_files
        exact hndfs.filter _
      have htc_all : (filter_already_copied_files bd fs st.copied).filter
          (fun g => !st.copied.contains (bd, g))
          = filter_already_copied_files bd fs st.copied := by
        rw [List.filter_eq_self]
        intro g hg
        unfold filter_already_copied_files at hg
        exact (List.mem_filter.mp hg).2
      have hfold : List.foldl (fun c g => insertUnique (bd, g) c) st1.copied
            (filter_already_copied_files bd fs st.copied)
          = st.copied ++ (filter_already_copied_files bd fs st.copied).map
              (fun g => (bd, g)) := by
        rw [hc1]
        rw [show List.foldl (fun c g => insertUnique (bd, g) c) st.copied
              (filter_already_copied_files bd fs st.copied)
            = (filter_already_copied_files bd fs st.copied).foldl
              (fun c g => insertUnique (bd, g) c) st.copied from rfl]
        rw [foldl_insertUnique_eq_filter bd _ _ htc_nd, htc_all]
      have hstep : prePassAll env (p :: rest) st.copied
          = prePassAll env rest (st.copied
              ++ (filter_already_copied_files bd fs st.copied).map (fun g => (bd, g))) := by
        rw [prePassAll, hpe]
        dsimp only
        rw [foldl_insertUnique_eq_filter bd fs st.copied hndfs]
        rfl
      obtain ⟨st', hloop, hcop, newIt2, hnew2, hatt2, hns2⟩ := ih
        {st1 with copied := (List.foldl (fun c g => insertUnique (bd, g) c) st1.copied
          (filter_already_copied_files bd fs st.copied))} (sp + 1)
      dsimp only at hcop hnew2 hatt2 hns2
      rw [hfold] at hcop hnew2
      refine ⟨st', ?_, ?_, (filter_already_copied_files bd fs st.copied).map
        (fun g => (bd, g)) ++ newIt2, ?_, ?_, ?_⟩
      · rw [hloop]
        have harith : sp + 1 + rest.length = sp + (rest.length + 1) := by omega
        rw [harith]
        simp
      · rw [hcop, hstep]
      · rw [hstep, hnew2]
        simp
      · rw [hatt2, hatt]
        simp
      · rw [hns2, hn1]
        simp
        omega

/-- C1 (amended). When every filesystem operation succeeds and no
playlist lists the same relative path twice, the media copy is
attempted exactly once per unique (base directory, relative path)
pair, across all playlists, and the reported successful-media count
equals the size of the pre-pass union of those pairs. -/
theorem normal_run_at_most_once_amended (env : Env) (d : Str) (kg cl : Bool)
    (ps : List Str)
    (HD : ∀ dd, env.dirExists dd = true) (HC : ∀ s t, env.copyOk s t = true)
    (HP : ∀ p, env.playlistCopyOk p = true) (HE : ∀ p, (env.extract p).isSome = true)
    (HND : ∀ p bd fs, env.extract p = some (bd, fs) → fs.Nodup) :
    ∃ st, process_normal_operations env d kg cl ps
        = (st, .ok (ps.length, ps.length, (prePassAll env ps []).length,
                    (prePassAll env ps []).length))
      ∧ st.attempts.Nodup
      ∧ st.nSuccess = (prePassAll env ps []).length := by
  obtain ⟨st', hloop, hcop, newIt, hnew, hatt, hns⟩ :=
    normalLoop_all_success env d kg cl HD HC HP HE HND ps initState 0
  have hnewIt : newIt = prePassAll env ps [] := by
    have h0 := hnew
    simp [initState] at h0
    exact h0.symm
  have h1 : st'.nSuccess = (prePassAll env ps []).length := by
    rw [hns, ← hnewIt]
    simp [initState]
  refine ⟨st', ?_, ?_, h1⟩
  · unfold process_normal_operations
    rw [prePassGo_all_some env HE kg ps [], hloop]
    dsimp only
    rw [h1]
    simp
  · rw [hatt, hnewIt]
    have h2 : initState.attempts = [] := rfl
    rw [h2]
    simpa using prePassAll_nodup env ps [] List.nodup_nil

/-- C1 (counterexample). A single playlist listing the same relative
path twice makes the copy machinery attempt the same (base directory,
relative path) pair twice, and the summary reports two successes
against a unique-pair total of one. -/
theorem normal_run_duplicate_entry_counterexample :
    ((process_normal_operations envDup "/d".toList true false
        ["/m/p.m3u8".toList]).1).attempts
      = [("/m".toList, "a.flac".toList), ("/m".toList, "a.flac".toList)]
    ∧ (process_normal_operations envDup "/d".toList true false
        ["/m/p.m3u8".toList]).2 = .ok (1, 1, 2, 1) := by
  constructor
  · decide
  · decide

/-- Witness for the amended C1 on a concrete all-success environment
with two distinct tracks. -/
theorem normal_run_at_most_once_witness :
    (process_normal_operations envAllOk "/d".toList true false
        ["/m/p.m3u8".toList]).2
      = .ok (1, 1, (prePassAll envAllOk ["/m/p.m3u8".toList] []).length,
             (prePassAll envAllOk ["/m/p.m3u8".toList] []).length)
    ∧ ((process_normal_operations envAllOk "/d".toList true false
        ["/m/p.m3u8".toList]).1).attempts.Nodup := by
  obtain ⟨st, heq, hnd, hns⟩ := normal_run_at_most_once_amended envAllOk "/d".toList
    true false ["/m/p.m3u8".toList] (fun _ => rfl) (fun _ _ => rfl) (fun _ => rfl)
    (fun _ => rfl)
    (by
      intro p bd fs h
      have h2 : (("/m".toList, ["a.flac".toList, "b.flac".toList]) : Str × List Str)
          = (bd, fs) := by
        injection h
      injection h2 with h3 h4
      rw [← h4]
      decide)
  rw [heq]
  exact ⟨rfl, hnd⟩

theorem normalLoop_bound (env : Env) (d : Str) (kg cl : Bool)
    (S : List (Str × Str))
    (HND : ∀ p bd fs, env.extract p = some (bd, fs) → fs.Nodup) :
    ∀ (ps : List Str) (st : RunState) (sp : Nat) (st' : RunState) (sp' : Nat),
      (∀ p ∈ ps, ∀ bd fs g, env.extract p = some (bd, fs) → g ∈ fs → (bd, g) ∈ S) →
      st.copied.Nodup → (∀ x ∈ st.copied, x ∈ S) →
      st.nSuccess = st.copied.length →
      st.emitted = List.range' 1 st.nSuccess →
      normalLoop env d kg cl ps st sp = ((st', sp'), .ok ()) →
      st'.copied.Nodup ∧ (∀ x ∈ st'.copied, x ∈ S)
        ∧ st'.nSuccess = st'.copied.length
        ∧ st'.emitted = List.range' 1 st'.nSuccess := by
  intro ps
  induction ps with
  | nil =>
    intro st sp st' sp' HS h1 h2 h3 h4 h
    rw [normalLoop] at h
    injection h with ha hb
    injection ha with hc hd
    subst hc
    exact ⟨h1, h2, h3, h4⟩
  | cons p rest ih =>
    intro st sp st' sp' HS h1 h2 h3 h4 h
    rw [normalLoop] at h
    cases hpp : process_playlist env p with
    | none =>
      rw [hpp] at h
      dsimp only at h
      cases kg with
      | false => exact absurd h (by simp)
      | true =>
        rw [if_pos rfl] at h
        exact ih {st with failures := st.failures ++ [.playlist p]} sp st' sp'
          (fun p2 hp2 => HS p2 (List.mem_cons_of_mem p hp2)) h1 h2 h3 h4 h
    | some bdfs =>
      rcases bdfs with ⟨bd, fs⟩
      rw [hpp] at h
      dsimp only at h
      rcases hcm : copy_media_files env d kg cl bd
          (filter_already_copied_files bd fs st.copied) st with ⟨st1, r⟩
      rw [hcm] at h
      cases r with
      | fatal =>
        cases kg with
        | false => exact absurd h (by simp)
        | true =>
          have hko := copy_media_files_keep_going_ok env d cl bd
            (filter_already_copied_files bd fs st.copied) st
          rw [hcm] at hko
          exact absurd rfl hko
      | ok succ =>
        dsimp only at h
        have hext : env.extract p = some (bd, fs) :=
          process_playlist_extract env p bd fs hpp
        have hndfs : fs.Nodup := HND p bd fs hext
        have htc_nd : (filter_already_copied_files bd fs st.copied).Nodup := by
          unfold filter_already_copied_files
          exact hndfs.filter _
        obtain ⟨hsub, hn1, _, _, _, hc1, he1⟩ := copy_media_files_ok_spec env d kg cl bd
          (filter_already_copied_files bd fs st.copied) st st1 succ hcm
        have hsucc_nd : succ.Nodup := hsub.nodup htc_nd
        have hsucc_notin : ∀ g ∈ succ, (bd, g) ∉ st.copied := by
          intro g hg
          have hg2 : g ∈ filter_already_copied_files bd fs st.copied := hsub.subset hg
          unfold filter_already_copied_files at hg2
          have := (List.mem_filter.mp hg2).2
          simp only [Bool.not_eq_true'] at this
          exact (contains_eq_false_iff_not_mem _ _).mp this
        have hsucc_in_fs : ∀ g ∈ succ, g ∈ fs := by
          intro g hg
          have hg2 : g ∈ filter_already_copied_files bd fs st.copied := hsub.subset hg
          unfold filter_already_copied_files at hg2
          exact (List.mem_filter.mp hg2).1
        have hfilter_self : succ.filter (fun g => !st.copied.contains (bd, g)) = succ := by
          rw [List.filter_eq_self]
          intro g hg
          have := (contains_eq_false_iff_not_mem st.copied (bd, g)).mpr (hsucc_notin g hg)
          rw [this]
          rfl
        have hfold : List.foldl (fun c g => insertUnique (bd, g) c) st1.copied succ
            = st.copied ++ succ.map (fun g => (bd, g)) := by
          rw [hc1]
          rw [show List.foldl (fun c g => insertUnique (bd, g) c) st.copied succ
              = succ.foldl (fun c g => insertUnique (bd, g) c) st.copied from rfl]
          rw [foldl_insertUnique_eq_filter bd succ st.copied hsucc_nd, hfilter_self]
        have hmap_nd : (succ.map (fun g => (bd, g))).Nodup := by
          refine hsucc_nd.map ?_
          intro a b hab
          injection hab
        have hnd2 : (st.copied ++ succ.map (fun g => (bd, g))).Nodup := by
          rw [List.nodup_append]
          refine ⟨h1, hmap_nd, ?_⟩
          intro a ha hb
          rcases List.mem_map.mp hb with ⟨g, hg, rfl⟩
          exact hsucc_notin g hg ha
        have hsub2 : ∀ x ∈ st.copied ++ succ.map (fun g => (bd, g)), x ∈ S := by
          intro x hx
          rcases List.mem_append.mp hx with hx1 | hx1
          · exact h2 x hx1
          · rcases List.mem_map.mp hx1 with ⟨g, hg, rfl⟩
            exact HS p (List.mem_cons_self p rest) bd fs g hext (hsucc_in_fs g hg)
        have hns2 : st1.nSuccess = (st.copied ++ succ.map (fun g => (bd, g))).length := by
          rw [hn1, h3]
          simp
        have hem2 : st1.emitted = List.range' 1 st1.nSuccess := by
          rw [he1, h4, hn1]
          rw [show st.nSuccess + 1 = 1 + st.nSuccess from by omega]
          rw [List.range'_append_1 1 st.nSuccess succ.length]
          rw [Nat.add_comm st.nSuccess succ.length]
        exact ih {st1 with copied := (List.foldl (fun c g => insertUnique (bd, g) c)
            st1.copied succ)} (sp + 1) st' sp'
          (fun p2 hp2 => HS p2 (List.mem_cons_of_mem p hp2))
          (by simpa [hfold] using hnd2)
          (by simpa [hfold] using hsub2)
          (by simpa [hfold] using hns2)
          (by simpa using hem2) h

/-- C3 (amended). In a completed normal-mode run over playlists none
of which lists the same relative path twice, the successive counter
values emitted in the per-success progress messages are strictly
increasing and never exceed the precomputed unique-media total of the
summary. (An intra-playlist duplicate breaks the bound, and in retry
mode the precomputed total counts only the bare M entries, which a
retried playlist's copies can exceed.) -/
theorem progress_monotone_amended (env : Env) (d : Str) (kg cl : Bool)
    (ps : List Str) (q : Nat × Nat × Nat × Nat)
    (HND : ∀ p bd fs, env.extract p = some (bd, fs) → fs.Nodup)
    (h : (process_normal_operations env d kg cl ps).2 = .ok q) :
    List.Chain' (· < ·) ((process_normal_operations env d kg cl ps).1).emitted
    ∧ ∀ v ∈ ((process_normal_operations env d kg cl ps).1).emitted, v ≤ q.2.2.2 := by
  rcases hrun : process_normal_operations env d kg cl ps with ⟨st, r⟩
  rw [hrun] at h
  dsimp only at h
  subst h
  unfold process_normal_operations at hrun
  rcases hpre : prePassGo env kg ps [] with all | _
  case fatal =>
    rw [hpre] at hrun
    exact absurd hrun (by simp)
  case ok =>
    rw [hpre] at hrun
    dsimp only at hrun
    rcases hloop : normalLoop env d kg cl ps initState 0 with ⟨⟨st1, sp1⟩, r1⟩
    rw [hloop] at hrun
    cases r1 with
    | fatal => exact absurd hrun (by simp)
    | ok u =>
      injection hrun with ha hb
      injection hb with hc
      subst ha
      subst hc
      have hall : all = prePassAll env ps [] := prePassGo_ok_eq env kg ps [] all hpre
      have HS : ∀ p ∈ ps, ∀ bd fs g, env.extract p = some (bd, fs) → g ∈ fs →
          (bd, g) ∈ all := by
        intro p hp bd fs g hpe hg
        rw [hall]
        exact mem_prePassAll env ps [] p bd fs g hp hpe hg
      obtain ⟨hnd, hsub, hns, hem⟩ := normalLoop_bound env d kg cl all HND ps
        initState 0 st1 sp1 HS (by simp [initState]) (by simp [initState])
        (by simp [initState]) (by simp [initState]) hloop
      constructor
      · dsimp only
        rw [hem]
        exact (List.pairwise_lt_range' 1 st1.nSuccess).chain'
      · intro v hv
        dsimp only at hv
        rw [hem] at hv
        have hv2 := List.mem_range'_1.mp hv
        have hle : st1.nSuccess ≤ all.length := by
          rw [hns]
          exact (hnd.subperm hsub).length_le
        dsimp only
        omega

/-- C3 (counterexample). With one playlist listing the same relative
path twice, the run emits the counter values 1 and then 2 while the
precomputed unique-media total of the summary is 1: an emitted value
exceeds the total. -/
theorem progress_exceeds_total_counterexample :
    ((process_normal_operations envDup "/d".toList true false
        ["/m/p.m3u8".toList]).1).emitted = [1, 2]
    ∧ (process_normal_operations envDup "/d".toList true false
        ["/m/p.m3u8".toList]).2 = .ok (1, 1, 2, 1) := by
  constructor
  · decide
  · decide

/-- Witness for the amended C3 on a concrete duplicate-free run. -/
theorem progress_monotone_witness :
    List.Chain' (· < ·) ((process_normal_operations envAllOk "/d".toList true false
        ["/m/p.m3u8".toList]).1).emitted
    ∧ ∀ v ∈ ((process_normal_operations envAllOk "/d".toList true false
        ["/m/p.m3u8".toList]).1).emitted,
        v ≤ ((1, 1, 2, 2) : Nat × Nat × Nat × Nat).2.2.2 :=
  progress_monotone_amended envAllOk "/d".toList true false ["/m/p.m3u8".toList]
    (1, 1, 2, 2)
    (by
      intro p bd fs h
      have h2 : (("/m".toList, ["a.flac".toList, "b.flac".toList]) : Str × List Str)
          = (bd, fs) := by
        injection h
      injection h2 with h3 h4
      rw [← h4]
      decide)
    (by decide)

end PlaylistManager
